import Mathlib

/-!
Verification of the LLM batch-labeling subsystem of the sentiment-analysis
tool (`sentiment_analysis_tool.py`): the reply parser and its field
normalizers, the prompt chunker `_build_chunks`, the remote client
`_openrouter_request`, the cache loading step, and the orchestrator
`run_llm_batch`.

The Python code is shallowly embedded: strings are Lean `String`s (Python
string helpers are re-implemented character-wise below), Python floats are
modelled as rationals (`ℚ`; non-finite literals such as `nan`/`inf` and
digit-group underscores are outside the modelled domain), the SHA-1 digest
is abstracted as a function parameter, and the network is an oracle giving
the reply to the n-th outbound request of a run.
-/

namespace ST

/-- Python whitespace characters relevant to `str.strip()`. -/
def pyWhitespace : List Char := [' ', '\t', '\n', '\r', '\x0b', '\x0c']

/-- Strip the characters of `set` from both ends, as Python `str.strip(set)`. -/
def pyStripChars (set : List Char) (s : String) : String :=
  (((s.toList.dropWhile (fun c => set.contains c)).reverse.dropWhile
      (fun c => set.contains c)).reverse).asString

/-- Python `str.strip()` with no argument: strip whitespace from both ends. -/
def pyStrip (s : String) : String :=
  pyStripChars pyWhitespace s

/-- Python `str.lower()` (ASCII range; the replies are ASCII protocol text). -/
def pyLower (s : String) : String :=
  (s.toList.map Char.toLower).asString

/-- Replace every occurrence of the character `a` by `b`
(Python `str.replace` with one-character pattern). -/
def replChar (a b : Char) (s : String) : String :=
  (s.toList.map (fun c => if c = a then b else c)).asString

/-- Python `s[:n]`: the first `n` characters. -/
def pyTake (n : ℕ) (s : String) : String :=
  (s.toList.take n).asString

/-- Split on a single-character separator, as Python `str.split(sep)`. -/
def splitCharGo (sep : Char) : List Char → List (List Char)
  | [] => [[]]
  | c :: cs =>
    if c = sep then [] :: splitCharGo sep cs
    else
      match splitCharGo sep cs with
      | h :: t => (c :: h) :: t
      | [] => [[c]]

/-- Python `str.split(sep)` for a one-character separator. -/
def pySplitChar (sep : Char) (s : String) : List String :=
  (splitCharGo sep s.toList).map List.asString

/-- Worker for `pySplitlines`: accumulates the current line (reversed). -/
def pySplitlinesGo : List Char → List Char → List String
  | [], acc => if acc.isEmpty then [] else [acc.reverse.asString]
  | '\r' :: '\n' :: rest, acc => acc.reverse.asString :: pySplitlinesGo rest []
  | '\n' :: rest, acc => acc.reverse.asString :: pySplitlinesGo rest []
  | '\r' :: rest, acc => acc.reverse.asString :: pySplitlinesGo rest []
  | c :: rest, acc => pySplitlinesGo rest (c :: acc)

/-- Python `str.splitlines()` (restricted to the `\n`, `\r`, `\r\n` breaks;
the exotic unicode breaks do not occur in the modelled replies). -/
def pySplitlines (s : String) : List String :=
  pySplitlinesGo s.toList []

/-- Numeric value of a list of decimal digit characters. -/
def digitsVal (ds : List Char) : ℕ :=
  ds.foldl (fun a c => a * 10 + (c.toNat - 48)) 0

/-- Consume an optional sign, returning its value and the rest. -/
def pyFloatSign : List Char → ℤ × List Char
  | '+' :: t => (1, t)
  | '-' :: t => (-1, t)
  | t => (1, t)

/-- Exponent part of a float literal: optional sign then digits, which must
exhaust the input. -/
def pyFloatExp : List Char → Option ℤ
  | cs =>
    let (es, cs) :=
      match cs with
      | '+' :: t => ((1 : ℤ), t)
      | '-' :: t => ((-1 : ℤ), t)
      | t => ((1 : ℤ), t)
    let ed := cs.takeWhile Char.isDigit
    let rest := cs.dropWhile Char.isDigit
    if ed.isEmpty ∨ ¬ rest.isEmpty then none
    else some (es * digitsVal ed)

/-- The exact rational value
`sgn * (ip + fp / 10 ^ fpLen) * 10 ^ ex` of a decimal float literal,
assembled as a single normalized fraction so that it evaluates by kernel
reduction. -/
def pyFloatVal (sgn : ℤ) (ip fp fpLen : ℕ) (ex : ℤ) : ℚ :=
  let m : ℤ := sgn * ((ip * 10 ^ fpLen + fp : ℕ) : ℤ)
  if 0 ≤ ex then mkRat (m * ((10 ^ ex.toNat : ℕ) : ℤ)) (10 ^ fpLen)
  else mkRat m (10 ^ (fpLen + (-ex).toNat))

/-- Python `float(s)` on an already-stripped string, as an exact rational.
Accepts `[sign] (digits [. digits] | . digits) [(e|E) [sign] digits]`.
Non-finite literals (`nan`, `inf`) and underscore digit groups are outside
the modelled domain. Returns `none` where Python raises `ValueError`. -/
def pyFloat? (s : String) : Option ℚ :=
  let (sgn, cs) := pyFloatSign s.toList
  let ip := cs.takeWhile Char.isDigit
  let cs := cs.dropWhile Char.isDigit
  let (fp, cs) :=
    match cs with
    | '.' :: t => (t.takeWhile Char.isDigit, t.dropWhile Char.isDigit)
    | t => ([], t)
  if ip.isEmpty ∧ fp.isEmpty then none
  else
    match cs with
    | [] => some (pyFloatVal sgn (digitsVal ip) (digitsVal fp) fp.length 0)
    | 'e' :: t => (pyFloatExp t).map (pyFloatVal sgn (digitsVal ip) (digitsVal fp) fp.length)
    | 'E' :: t => (pyFloatExp t).map (pyFloatVal sgn (digitsVal ip) (digitsVal fp) fp.length)
    | _ => none

/-- Lexicographic code-point comparison, as Python `<=` on strings. -/
def lexLe : List Char → List Char → Bool
  | [], _ => true
  | _ :: _, [] => false
  | a :: as, b :: bs =>
    if a.toNat < b.toNat then true
    else if a.toNat = b.toNat then lexLe as bs
    else false

/-- Insert into a sorted list after all elements `≤` it (stable insertion). -/
def insertAfterEq (le : α → α → Bool) : List α → α → List α
  | [], x => [x]
  | y :: ys, x => if le y x then y :: insertAfterEq le ys x else x :: y :: ys

/-- Stable sort by repeated insertion; models Python `sorted` and
`DataFrame.sort_values` (whose order among equal keys the claims never use). -/
def stableSort (le : α → α → Bool) (l : List α) : List α :=
  l.foldl (insertAfterEq le) []

/-! ## Reply parser: field normalizers (`run_llm_batch` inner helpers) -/

/-- The closed ethics vocabulary `ETH_CODES` of `run_llm_batch`. -/
def ETH_CODES : List String :=
  ["bias", "privacy", "transparency", "job_displacement", "safety", "none"]

/-- The shorthand table `lab_map` of `run_llm_batch`. -/
def lab_map : List (String × String) :=
  [("-", "negative"), ("+", "positive"), ("n", "neutral"),
   ("neg", "negative"), ("pos", "positive")]

/-- Python `t.startswith(p)`. -/
def pyStartsWith (p t : String) : Bool :=
  t.toList.take p.toList.length = p.toList

/-- Model of `_norm_label` (inner helper of `run_llm_batch`, lines 889-891). -/
def norm_label (x : String) : String :=
  let t := pyLower (pyStrip x)
  match (lab_map.find? (fun p => p.1 = t)).map Prod.snd with
  | some v => v
  | none =>
    if pyStartsWith "pos" t then "positive"
    else if pyStartsWith "neg" t then "negative"
    else "neutral"

/-- Python `min(a, b)` on rationals. -/
def pyMin (a b : ℚ) : ℚ :=
  if a ≤ b then a else b

/-- Python `max(a, b)` on rationals. -/
def pyMax (a b : ℚ) : ℚ :=
  if a ≤ b then b else a

/-- Model of `_norm_score_val` (inner helper of `run_llm_batch`, lines 892-896):
parse as float (0.0 on failure), return 0.0 for a neutral label, otherwise
clamp to [-1, 1].  Note: no sign flip towards the label's polarity. -/
def norm_score_val (s : String) (lab : String) : ℚ :=
  let v := (pyFloat? (pyStrip s)).getD 0
  if lab = "neutral" then 0 else pyMax (-1) (pyMin 1 v)

/-- Model of `_norm_bool` (inner helper of `run_llm_batch`, lines 897-899):
membership of the stripped, lowered token in `{1, y, yes, true}`. -/
def norm_bool (s : String) : Bool :=
  decide (pyLower (pyStrip s) ∈ (["1", "y", "yes", "true"] : List String))

/-- Core of `_norm_ethics` after the falsy guard (lines 901-904): remove
spaces, split on commas, strip+lower tokens, keep tokens in `ETH_CODES`,
join the sorted de-duplicated survivors (or yield "none"). -/
def ethicsCore (s : String) : String :=
  let toks := ((pySplitChar ',' ((s.toList.filter (fun c => ¬ c = ' ')).asString)).map
      pyStrip).filter (fun z => ¬ z = "")
  let toks := toks.map pyLower
  let toks := toks.filter (fun z => ETH_CODES.contains z)
  if toks.isEmpty then "none"
  else String.intercalate "," (stableSort (fun a b => lexLe a.toList b.toList) toks.dedup)

/-- Model of `_norm_ethics` on a string argument (the pipe-delimited branch). -/
def norm_ethics (s : String) : String :=
  if s = "" then "none" else ethicsCore s

/-! ## Reply parser: record type and the two wire formats (`_parse_block`) -/

/-- A parsed per-row label record, the value type of `_parse_block`'s dict. -/
structure LabelRec where
  id : ℤ
  llm_label : String
  llm_score : ℚ
  llm_sarcasm : Bool
  llm_ethics : String
deriving Repr, DecidableEq

/-- Python dict insertion `out[rid] = rec` where `rid` is always `rec.id`
at every insertion site of `_parse_block`: replace in place or append. -/
def dictUpsert (d : List LabelRec) (r : LabelRec) : List LabelRec :=
  if d.any (fun x => x.id == r.id) then d.map (fun x => if x.id = r.id then r else x)
  else d ++ [r]

/-- Python `parsed[rid]` / `rid in parsed` lookup. -/
def dictFind (d : List LabelRec) (rid : ℤ) : Option LabelRec :=
  d.find? (fun x => x.id == rid)

/-- The cleaned pipe-delimited fields of one reply line
(`line.strip().strip("#").strip()`, split on `|`, strip each field,
pad a 4-field line with "none"); `[]` when the line is skipped. -/
def lineParts (line : String) : List String :=
  let l := pyStrip (pyStripChars ['#'] (pyStrip line))
  match l.toList.head? with
  | none => []
  | some c =>
    if ¬ c.isDigit then []
    else
      let parts := (pySplitChar '|' l).map pyStrip
      if parts.length < 5 then
        (if parts.length = 4 then parts ++ ["none"] else [])
      else parts

/-- Model of `int(re.sub(r"[^\d]", "", t))`: the digits of `t` as an integer,
`none` when no digit survives (Python raises and the line is skipped). -/
def digitsInt (t : String) : Option ℤ :=
  let ds := t.toList.filter Char.isDigit
  if ds.isEmpty then none else some (digitsVal ds : ℤ)

/-- Parse one pipe-delimited reply line (`_parse_block` lines 927-946):
`none` where the Python loop `continue`s.  `lineParts` is `[]` exactly on
the skipped lines, and has length at least 5 otherwise, so the total
`get?`/`getD` field access coincides with Python's `parts[i]`. -/
def parseLine (line : String) : Option LabelRec :=
  if (lineParts line).isEmpty then none
  else
    match digitsInt (((lineParts line).get? 0).getD "") with
    | none => none
    | some rid =>
      let lab := norm_label (((lineParts line).get? 1).getD "")
      some { id := rid, llm_label := lab,
             llm_score := norm_score_val (((lineParts line).get? 2).getD "") lab,
             llm_sarcasm := norm_bool (((lineParts line).get? 3).getD ""),
             llm_ethics := norm_ethics (((lineParts line).get? 4).getD "") }

/-- The pipe-delimited branch of `_parse_block`: fold the parsed lines into
the id-keyed dict (later lines overwrite earlier ones with the same id). -/
def parseLinesBlock (raw : String) : List LabelRec :=
  (pySplitlines raw).foldl
    (fun out line =>
      match parseLine line with
      | some r => dictUpsert out r
      | none => out)
    []

/-- A decoded JSON value as found in the object-format reply.  JSON number
literals are modelled as integers; fractional scores reach the parser as
strings in this model. -/
inductive JVal where
  | jstr (s : String)
  | jint (z : ℤ)
  | jbool (b : Bool)
  | jnull
deriving Repr, DecidableEq

/-- Python truthiness `bool(v)` of a decoded JSON value. -/
def jTruthy : JVal → Bool
  | .jstr s => ¬ s = ""
  | .jint z => ¬ z = 0
  | .jbool b => b
  | .jnull => false

/-- Python `str(v)` of a decoded JSON value. -/
def jStr : JVal → String
  | .jstr s => s
  | .jint z => toString z
  | .jbool b => if b then "True" else "False"
  | .jnull => "None"

/-- Model of `str(x) if x is not None else ""`, the guard inside `_norm_bool`. -/
def jStrOrEmpty : JVal → String
  | .jnull => ""
  | v => jStr v

/-- Model of `_norm_ethics` on a JSON-valued argument: the `if not s` truthiness
guard, then the string core on `str(s)`. -/
def norm_ethics_j (v : JVal) : String :=
  if jTruthy v then ethicsCore (jStr v) else "none"

/-- One value of the JSON-format reply object, as used by `_parse_block`
(lines 913-922).  An absent key is represented by its Python default:
`jint 0` for `S`/`Z`/`sarcasm`, the empty string for `L`/`E`.  Entries whose
`L` is a truthy non-string raise in Python and divert the whole reply to the
line parser; they are outside the modelled domain. -/
structure JEntry where
  L : String
  S : JVal
  Z : JVal
  sarcasm : JVal
  E : JVal
deriving Repr, DecidableEq

/-- The record built from one JSON entry (`out[rid] = {...}`, lines 916-922).
The sarcasm flag is `bool(v.get("Z",0)) or _norm_bool(v.get("sarcasm",0))`:
Python truthiness of `Z`, or-ed with the normalized `sarcasm` field. -/
def jsonRec (k : String) (e : JEntry) : LabelRec :=
  let rid : ℤ := digitsVal (k.toList.filter Char.isDigit)
  let lab := norm_label e.L
  { id := rid, llm_label := lab,
    llm_score := norm_score_val (jStr e.S) lab,
    llm_sarcasm := jTruthy e.Z || norm_bool (jStrOrEmpty e.sarcasm),
    llm_ethics := norm_ethics_j e.E }

/-- The JSON branch of `_parse_block` (lines 910-923). -/
def parseJsonBlock (entries : List (String × JEntry)) : List LabelRec :=
  entries.foldl (fun out kv => dictUpsert out (jsonRec kv.1 kv.2)) []

/-- A service reply as consumed by `_parse_block`.  A reply whose stripped
text starts with a brace and decodes as a JSON object of well-typed entries
is represented pre-decoded by `jsonObj`; every other reply (including
invalid JSON, which Python catches and feeds to the line loop) is `text`. -/
inductive Reply where
  | text (s : String)
  | jsonObj (entries : List (String × JEntry))
deriving Repr

/-- Model of `_parse_block` (lines 906-947). -/
def parse_block : Reply → List LabelRec
  | .text s => parseLinesBlock (pyStrip s)
  | .jsonObj es => parseJsonBlock es

/-! ## Parser lemmas -/

lemma mem_dictUpsert {d : List LabelRec} {x r : LabelRec} (h : r ∈ dictUpsert d x) :
    r ∈ d ∨ r = x := by
  unfold dictUpsert at h
  by_cases hc : d.any (fun y => y.id == x.id)
  · rw [if_pos hc] at h
    obtain ⟨a, ha, hr⟩ := List.mem_map.mp h
    by_cases hid : a.id = x.id
    · right; rw [if_pos hid] at hr; exact hr.symm
    · left; rw [if_neg hid] at hr; exact hr ▸ ha
  · rw [if_neg hc] at h
    rcases List.mem_append.mp h with h1 | h1
    · exact Or.inl h1
    · exact Or.inr (List.mem_singleton.mp h1)

lemma mem_parseLinesBlock {P : LabelRec → Prop}
    (hP : ∀ line r, parseLine line = some r → P r) :
    ∀ (ls : List String) (acc : List LabelRec), (∀ r ∈ acc, P r) →
      ∀ r ∈ ls.foldl
        (fun out line => match parseLine line with
          | some r => dictUpsert out r
          | none => out) acc, P r := by
  intro ls
  induction ls with
  | nil => intro acc hacc r hr; exact hacc r hr
  | cons l t ih =>
    intro acc hacc r hr
    simp only [List.foldl_cons] at hr
    rcases hl : parseLine l with _ | v
    · rw [hl] at hr
      exact ih acc hacc r hr
    · rw [hl] at hr
      refine ih _ ?_ r hr
      intro y hy
      rcases mem_dictUpsert hy with h1 | h1
      · exact hacc y h1
      · exact h1 ▸ hP l v hl

lemma mem_parseJsonBlock {P : LabelRec → Prop}
    (hP : ∀ k e, P (jsonRec k e)) :
    ∀ (es : List (String × JEntry)) (acc : List LabelRec), (∀ r ∈ acc, P r) →
      ∀ r ∈ es.foldl (fun out kv => dictUpsert out (jsonRec kv.1 kv.2)) acc, P r := by
  intro es
  induction es with
  | nil => intro acc hacc r hr; exact hacc r hr
  | cons kv t ih =>
    intro acc hacc r hr
    simp only [List.foldl_cons] at hr
    refine ih _ ?_ r hr
    intro y hy
    rcases mem_dictUpsert hy with h1 | h1
    · exact hacc y h1
    · exact h1 ▸ hP kv.1 kv.2

lemma pyMax_eq_max (a b : ℚ) : pyMax a b = max a b := by
  simp [pyMax, max_def]

lemma pyMin_eq_min (a b : ℚ) : pyMin a b = min a b := by
  simp [pyMin, min_def]

lemma norm_score_val_bounds (s lab : String) :
    (lab = "neutral" → norm_score_val s lab = 0) ∧
    (-1 ≤ norm_score_val s lab ∧ norm_score_val s lab ≤ 1) := by
  unfold norm_score_val
  by_cases h : lab = "neutral"
  · rw [if_pos h]
    exact ⟨fun _ => rfl, by norm_num⟩
  · rw [if_neg h, pyMax_eq_max, pyMin_eq_min]
    refine ⟨fun hn => absurd hn h, le_max_left _ _, ?_⟩
    exact max_le (by norm_num) (min_le_left _ _)

lemma parseLine_eq_some {line : String} {r : LabelRec} (h : parseLine line = some r) :
    ∃ rid : ℤ, r =
      { id := rid,
        llm_label := norm_label (((lineParts line).get? 1).getD ""),
        llm_score := norm_score_val (((lineParts line).get? 2).getD "")
          (norm_label (((lineParts line).get? 1).getD "")),
        llm_sarcasm := norm_bool (((lineParts line).get? 3).getD ""),
        llm_ethics := norm_ethics (((lineParts line).get? 4).getD "") } := by
  unfold parseLine at h
  by_cases h1 : (lineParts line).isEmpty
  · rw [if_pos h1] at h; exact absurd h (by simp)
  · rw [if_neg h1] at h
    rcases h2 : digitsInt (((lineParts line).get? 0).getD "") with _ | rid <;> rw [h2] at h
    · exact absurd h (by simp)
    · exact ⟨rid, by simpa using h.symm⟩

lemma parseLine_score_inv (line : String) (r : LabelRec) (h : parseLine line = some r) :
    (r.llm_label = "neutral" → r.llm_score = 0) ∧
    (-1 ≤ r.llm_score ∧ r.llm_score ≤ 1) := by
  obtain ⟨rid, hr⟩ := parseLine_eq_some h
  subst hr
  simpa using norm_score_val_bounds (((lineParts line).get? 2).getD "")
    (norm_label (((lineParts line).get? 1).getD ""))

lemma jsonRec_score_inv (k : String) (e : JEntry) :
    ((jsonRec k e).llm_label = "neutral" → (jsonRec k e).llm_score = 0) ∧
    (-1 ≤ (jsonRec k e).llm_score ∧ (jsonRec k e).llm_score ≤ 1) := by
  simpa [jsonRec] using norm_score_val_bounds (jStr e.S) (norm_label e.L)

/-- C1 (amended): for every record produced by `_parse_block` in either wire
format, a neutral label forces score 0 and the score lies in [-1, 1].  The
positive/negative sign clauses of the original claim are dropped: the score
is only clamped, never sign-flipped (see `c1_counterexample`). -/
theorem c1_score_label_invariant (rep : Reply) (r : LabelRec) (h : r ∈ parse_block rep) :
    (r.llm_label = "neutral" → r.llm_score = 0) ∧
    (-1 ≤ r.llm_score ∧ r.llm_score ≤ 1) := by
  cases rep with
  | text s =>
    exact mem_parseLinesBlock (P := fun r =>
      (r.llm_label = "neutral" → r.llm_score = 0) ∧ (-1 ≤ r.llm_score ∧ r.llm_score ≤ 1))
      parseLine_score_inv (pySplitlines (pyStrip s)) [] (by simp) r h
  | jsonObj es =>
    exact mem_parseJsonBlock (P := fun r =>
      (r.llm_label = "neutral" → r.llm_score = 0) ∧ (-1 ≤ r.llm_score ∧ r.llm_score ≤ 1))
      jsonRec_score_inv es [] (by simp) r h

set_option maxHeartbeats 2000000 in
/-- Witness for C1: the record parsed from "7|neutral|0.4|0|none" is neutral
with score forced to 0 and inside [-1, 1]. -/
theorem c1_score_label_invariant_witness :
    let r : LabelRec :=
      { id := 7, llm_label := "neutral", llm_score := 0, llm_sarcasm := false,
        llm_ethics := "none" }
    (r.llm_label = "neutral" → r.llm_score = 0) ∧
    (-1 ≤ r.llm_score ∧ r.llm_score ≤ 1) :=
  c1_score_label_invariant (.text "7|neutral|0.4|0|none") _ (by decide)

/-- Counterexample to C1 as stated: the reply line "1|positive|-0.5|0|none"
parses to a record labelled positive whose score is -1/2 < 0, so a positive
label does not imply a non-negative score. -/
theorem c1_counterexample :
    parse_block (.text "1|positive|-0.5|0|none") =
      [{ id := 1, llm_label := "positive", llm_score := mkRat (-1) 2, llm_sarcasm := false,
         llm_ethics := "none" }] ∧
    ¬ ((0 : ℚ) ≤ mkRat (-1) 2) := by
  decide

lemma norm_bool_iff (s : String) :
    norm_bool s = true ↔ pyLower (pyStrip s) ∈ ["1", "y", "yes", "true"] := by
  simp [norm_bool]

lemma parseLine_sarcasm (line : String) (r : LabelRec) (h : parseLine line = some r) :
    r.llm_sarcasm = norm_bool (((lineParts line).get? 3).getD "") := by
  obtain ⟨rid, hr⟩ := parseLine_eq_some h
  rw [hr]

/-- C7 (amended): in the pipe-delimited format the sarcasm flag is true
exactly when the (stripped, lowered) fourth field is one of 1/y/yes/true;
in the JSON format the flag is instead the Python truthiness of the `Z`
value or-ed with that normalization of the `sarcasm` key, so e.g. the
string token "0" yields true (see `c7_counterexample`). -/
theorem c7_sarcasm_normalization :
    (∀ line r, parseLine line = some r →
      (r.llm_sarcasm = true ↔
        pyLower (pyStrip (((lineParts line).get? 3).getD "")) ∈ ["1", "y", "yes", "true"])) ∧
    (∀ k e, (jsonRec k e).llm_sarcasm =
      (jTruthy e.Z || norm_bool (jStrOrEmpty e.sarcasm))) := by
  constructor
  · intro line r h
    rw [parseLine_sarcasm line r h]
    exact norm_bool_iff _
  · intro k e
    rfl

/-- Witness for C7: the line "1|pos|0.5|yes|none" parses with sarcasm true,
and its fourth field "yes" is in the accepted token set. -/
theorem c7_sarcasm_normalization_witness :
    ({ id := 1, llm_label := "positive", llm_score := mkRat 1 2, llm_sarcasm := true,
       llm_ethics := "none" } : LabelRec).llm_sarcasm = true ↔
      pyLower (pyStrip (((lineParts "1|pos|0.5|yes|none").get? 3).getD "")) ∈
        ["1", "y", "yes", "true"] :=
  c7_sarcasm_normalization.1 "1|pos|0.5|yes|none" _ (by decide)

/-- Counterexample to C7 as stated: a JSON reply with `Z` being the string
"0" yields a record whose sarcasm flag is true, although the token "0"
matches none of 1/y/yes/true. -/
theorem c7_counterexample :
    (parse_block (.jsonObj
        [("1", ⟨"pos", .jstr "0.5", .jstr "0", .jint 0, .jstr ""⟩)])).map
      (fun r => r.llm_sarcasm) = [true] ∧
    norm_bool "0" = false := by
  decide

/-! ## Prompt chunker (`_build_chunks`, `run_llm_batch` lines 868-886) -/

/-- A row of the `todo` frame handed to `_build_chunks`. -/
structure TodoRow where
  id : ℤ
  text : String
  cache_sig : String
deriving Repr, DecidableEq

/-- Kernel-reducible `max` on `ℤ`: `if a ≤ b then b else a`. -/
def intMax (a b : ℤ) : ℤ :=
  if a ≤ b then b else a

/-- The per-row text: newlines collapsed to spaces, truncated to 4000
characters (`(r.text or "").replace(chr(10)," ").replace(chr(13)," ")[:4000]`). -/
def truncText (t : String) : String :=
  pyTake 4000 (replChar '\r' ' ' (replChar '\n' ' ' t))

/-- The serialized line for one row: `f'{int(r.id)}\t{...}'`. -/
def mkLine (r : TodoRow) : String :=
  toString r.id ++ "\t" ++ truncText r.text

/-- The fixed user-message preamble prepended to every chunk. -/
def chunkPreamble : String :=
  "Classify id<TAB>text. Return one CSV line per input row in the same order.\n\n"

/-- Model of `"\n".join(buf_lines)`. -/
def joinLines : List String → String
  | [] => ""
  | [l] => l
  | l :: ls => l ++ "\n" ++ joinLines ls

/-- One chunk: the buffered row ids and the serialized user message. -/
structure Chunk where
  ids : List ℤ
  user : String
deriving Repr, DecidableEq

/-- Close the current buffer into a chunk (lines 879-880 and 884-885). -/
def closeChunk (bufIds : List ℤ) (bufLines : List String) : Chunk :=
  ⟨bufIds, chunkPreamble ++ joinLines bufLines⟩

/-- The greedy accumulation loop of `_build_chunks` (lines 876-885):
flush the buffer when it is non-empty and adding the next line would
exceed the budget, then push the current line. -/
def chunksGo (budget : ℤ) : List (ℤ × String) → List ℤ → List String → ℤ → List Chunk
  | [], bufIds, bufLines, _ =>
    if bufIds.isEmpty then [] else [closeChunk bufIds bufLines]
  | (rid, line) :: rest, bufIds, bufLines, bufLen =>
    let add : ℤ := (line.length : ℤ) + 1
    if bufLen ≠ 0 ∧ budget < bufLen + add then
      closeChunk bufIds bufLines :: chunksGo budget rest [rid] [line] add
    else
      chunksGo budget rest (bufIds ++ [rid]) (bufLines ++ [line]) (bufLen + add)

/-- Model of `_build_chunks`: serialize each row to a line, then greedily pack the
lines under `budget = max(2000, max_prompt_chars - len(sys_msg) - 128)`.
`sysLen` is the length of the system message. -/
def build_chunks (max_prompt_chars : ℤ) (sysLen : ℕ) (frame : List TodoRow) : List Chunk :=
  if frame.isEmpty then []
  else
    let lines := frame.map mkLine
    let budget : ℤ := intMax 2000 (max_prompt_chars - sysLen - 128)
    chunksGo budget (List.zip (frame.map TodoRow.id) lines) [] [] 0

/-! ## Chunker lemmas: order preservation (C4) and budget (C3) -/

lemma chunksGo_ids_join (budget : ℤ) :
    ∀ (rows : List (ℤ × String)) (bufIds : List ℤ) (bufLines : List String) (bufLen : ℤ),
      ((chunksGo budget rows bufIds bufLines bufLen).map Chunk.ids).flatten =
        bufIds ++ rows.map Prod.fst := by
  intro rows
  induction rows with
  | nil =>
    intro bufIds bufLines bufLen
    by_cases h : bufIds.isEmpty
    · simp [chunksGo, h, List.isEmpty_iff.mp h]
    · simp [chunksGo, h, closeChunk]
  | cons p rest ih =>
    intro bufIds bufLines bufLen
    obtain ⟨rid, line⟩ := p
    simp only [chunksGo]
    by_cases h : bufLen ≠ 0 ∧ budget < bufLen + ((line.length : ℤ) + 1)
    · simp only [if_pos h, List.map_cons, List.flatten, closeChunk, ih]
      simp
    · simp only [if_neg h, ih]
      simp

lemma build_chunks_ids (max_prompt_chars : ℤ) (sysLen : ℕ) (frame : List TodoRow) :
    ((build_chunks max_prompt_chars sysLen frame).map Chunk.ids).flatten =
      frame.map TodoRow.id := by
  unfold build_chunks
  by_cases h : frame.isEmpty
  · simp [h, List.isEmpty_iff.mp h]
  · rw [if_neg h, chunksGo_ids_join]
    simpa using List.map_fst_zip (frame.map TodoRow.id) (frame.map mkLine) (by simp)

/-- C4: concatenating the id-lists of the chunks, in order, reproduces the
ids of the input rows in their original order. -/
theorem c4_chunk_ordering (max_prompt_chars : ℤ) (sysLen : ℕ) (frame : List TodoRow) :
    ((build_chunks max_prompt_chars sysLen frame).map Chunk.ids).flatten =
      frame.map TodoRow.id :=
  build_chunks_ids max_prompt_chars sysLen frame

/-- The buffer cost tracked by `_build_chunks`: `len(line) + 1` per line. -/
def costLines (ls : List String) : ℤ :=
  (ls.map (fun l => (l.length : ℤ) + 1)).sum

lemma costLines_append_one (ls : List String) (l : String) :
    costLines (ls ++ [l]) = costLines ls + ((l.length : ℤ) + 1) := by
  simp [costLines]

lemma costLines_nonneg (ls : List String) : 0 ≤ costLines ls := by
  induction ls with
  | nil => simp [costLines]
  | cons l t ih =>
    have : (0 : ℤ) ≤ (l.length : ℤ) + 1 := by positivity
    simpa [costLines] using add_nonneg this (by simpa [costLines] using ih)

lemma joinLines_length (ls : List String) (h : ls ≠ []) :
    ((joinLines ls).length : ℤ) = costLines ls - 1 := by
  induction ls with
  | nil => exact absurd rfl h
  | cons l t ih =>
    cases t with
    | nil => simp [joinLines, costLines]
    | cons x xs =>
      have hxs : x :: xs ≠ [] := by simp
      have : joinLines (l :: x :: xs) = l ++ "\n" ++ joinLines (x :: xs) := rfl
      rw [this]
      have hlen : ((l ++ "\n" ++ joinLines (x :: xs)).length : ℤ) =
          (l.length : ℤ) + 1 + ((joinLines (x :: xs)).length : ℤ) := by
        simp [String.length_append]
        rfl
      rw [hlen, ih hxs]
      simp [costLines]
      ring

lemma chunksGo_user_bound (budget : ℤ) :
    ∀ (rows : List (ℤ × String)) (bufIds : List ℤ) (bufLines : List String) (bufLen : ℤ),
      (∀ p ∈ rows, (p.2.length : ℤ) + 1 ≤ budget) →
      bufLen = costLines bufLines →
      bufLen ≤ budget →
      (bufIds.isEmpty ↔ bufLines.isEmpty) →
      ∀ c ∈ chunksGo budget rows bufIds bufLines bufLen,
        (c.user.length : ℤ) ≤ (chunkPreamble.length : ℤ) + budget - 1 := by
  intro rows
  induction rows with
  | nil =>
    intro bufIds bufLines bufLen _ hbuf hle hne c hc
    by_cases h : bufIds.isEmpty
    · simp [chunksGo, h] at hc
    · simp only [chunksGo, if_neg h, List.mem_singleton] at hc
      subst hc
      have hlines : bufLines ≠ [] := by
        intro he
        exact h (hne.mpr (by simp [he]))
      simp only [closeChunk, String.length_append]
      have := joinLines_length bufLines hlines
      push_cast
      omega
  | cons p rest ih =>
    intro bufIds bufLines bufLen hrows hbuf hle hne c hc
    obtain ⟨rid, line⟩ := p
    have hline : (line.length : ℤ) + 1 ≤ budget := hrows (rid, line) (by simp)
    simp only [chunksGo] at hc
    by_cases h : bufLen ≠ 0 ∧ budget < bufLen + ((line.length : ℤ) + 1)
    · rw [if_pos h] at hc
      rcases List.mem_cons.mp hc with h1 | h1
      · subst h1
        have hlines : bufLines ≠ [] := by
          intro he
          exact h.1 (by simp [hbuf, he, costLines])
        simp only [closeChunk, String.length_append]
        have := joinLines_length bufLines hlines
        push_cast
        omega
      · refine ih [rid] [line] ((line.length : ℤ) + 1)
          (fun q hq => hrows q (by simp [hq])) (by simp [costLines]) hline (by simp) c h1
    · rw [if_neg h] at hc
      push_neg at h
      have hle' : bufLen + ((line.length : ℤ) + 1) ≤ budget := by
        by_cases h0 : bufLen = 0
        · omega
        · exact h h0
      refine ih (bufIds ++ [rid]) (bufLines ++ [line]) (bufLen + ((line.length : ℤ) + 1))
        (fun q hq => hrows q (by simp [hq]))
        (by rw [costLines_append_one, hbuf]) hle' (by simp) c hc

/-- C3 (amended): when the configured budget leaves at least the floor of
2000 characters after the system message and safety margin, and every
serialized row line (id, tab, text truncated to 4000 characters) fits that
budget, each chunk's system-plus-user serialization stays within
`max_prompt_chars`; and unconditionally no row line ever carries more than
4000 characters of text.  Without these provisos the bound fails: the
budget has a hard floor of `max(2000, ...)` and a single oversized line is
never split (see `c3_counterexample`). -/
theorem c3_budget_respected (max_prompt_chars : ℤ) (sysLen : ℕ) (frame : List TodoRow)
    (h1 : 2000 ≤ max_prompt_chars - sysLen - 128)
    (h2 : ∀ r ∈ frame, ((mkLine r).length : ℤ) + 1 ≤ max_prompt_chars - sysLen - 128) :
    (∀ c ∈ build_chunks max_prompt_chars sysLen frame,
      (sysLen : ℤ) + c.user.length ≤ max_prompt_chars) ∧
    (∀ r : TodoRow, (truncText r.text).length ≤ 4000) := by
  constructor
  · intro c hc
    unfold build_chunks at hc
    by_cases h : frame.isEmpty
    · simp [h] at hc
    · rw [if_neg h] at hc
      have hbudget : intMax 2000 (max_prompt_chars - sysLen - 128) =
          max_prompt_chars - sysLen - 128 := by
        unfold intMax
        rw [if_pos h1]
      rw [hbudget] at hc
      have hrows : ∀ p ∈ List.zip (frame.map TodoRow.id) (frame.map mkLine),
          (p.2.length : ℤ) + 1 ≤ max_prompt_chars - sysLen - 128 := by
        intro p hp
        have h2' := (List.of_mem_zip hp).2
        obtain ⟨r, hr, he⟩ := List.mem_map.mp h2'
        exact he ▸ h2 r hr
      have := chunksGo_user_bound (max_prompt_chars - sysLen - 128)
        (List.zip (frame.map TodoRow.id) (frame.map mkLine)) [] [] 0
        hrows (by simp [costLines]) (by omega) (by simp) c hc
      have hpre : (chunkPreamble.length : ℤ) = 76 := by decide
      omega
  · intro r
    have : (truncText r.text).length =
        ((replChar '\r' ' ' (replChar '\n' ' ' r.text)).toList.take 4000).length := rfl
    rw [this, List.length_take]
    exact min_le_left _ _

/-- Witness for C3: with `max_prompt_chars = 10000` and a 300-character
system message, the one-row frame is chunked within budget. -/
theorem c3_budget_respected_witness :
    (∀ c ∈ build_chunks 10000 300 [⟨1, "hello", "s"⟩],
      ((300 : ℕ) : ℤ) + c.user.length ≤ 10000) ∧
    (∀ r : TodoRow, (truncText r.text).length ≤ 4000) :=
  c3_budget_respected 10000 300 [⟨1, "hello", "s"⟩] (by decide) (by decide)

set_option maxRecDepth 4000 in
/-- Counterexample to C3 as stated: with `max_prompt_chars = 100`, an empty
system message and one 200-character row, the single chunk serializes to
278 characters, exceeding the configured budget (the chunker's internal
budget has a floor of 2000). -/
theorem c3_counterexample :
    ((build_chunks 100 0 [⟨1, (List.replicate 200 'a').asString, "s"⟩]).map
      (fun c => (c.user.length : ℤ))) = [278] ∧
    ¬ (((0 : ℕ) : ℤ) + 278 ≤ 100) := by
  decide

/-! ## Remote labeling client (`_openrouter_request`, lines 682-722) -/

/-- What the network yields for one attempt: a request exception, or an
HTTP response.  `content` is the extracted `choices[0].message.content`
when the body decodes with the expected JSON shape, else `none`.
`retryWait` abstracts `_retry_wait_from_headers` applied to the response
headers (its value depends on the wall clock). -/
inductive AttemptOutcome where
  | netError
  | response (status : ℕ) (body : String) (content : Option String) (retryWait : ℚ)

/-- One recorded `time.sleep` of the retry loop: the network-failure branch
or the 429/5xx branch, tagged with the attempt number. -/
inductive SleepEvent where
  | netSleep (attempt : ℕ) (dur : ℚ)
  | httpSleep (attempt : ℕ) (dur : ℚ)
deriving Repr, DecidableEq

/-- The linear network backoff `min(12.0, 1.5 * attempt)`; `mkRat (3 * a) 2`
is the exact value of `1.5 * a`. -/
def netBackoff (attempt : ℕ) : ℚ :=
  pyMin 12 (mkRat (3 * attempt) 2)

/-- The retry loop of `_openrouter_request` (lines 695-721).  `fuel` is the
number of loop iterations left (`max_attempts - attempt + 1`); returns the
reply string, the number of attempts consumed, and the sleeps performed.
Python's `continue` on the last iteration falls off the loop and returns ""
(line 722), which coincides with the `fuel = 0` base case. -/
def openrouterGo (f : ℕ → AttemptOutcome) : ℕ → ℕ → String × ℕ × List SleepEvent
  | _, 0 => ("", 0, [])
  | attempt, fuel + 1 =>
    match f attempt with
    | .netError =>
      let r := openrouterGo f (attempt + 1) fuel
      (r.1, r.2.1 + 1, .netSleep attempt (netBackoff attempt) :: r.2.2)
    | .response st body content rw =>
      if 200 ≤ st ∧ st < 300 then (content.getD body, 1, [])
      else if st = 429 then
        let r := openrouterGo f (attempt + 1) fuel
        (r.1, r.2.1 + 1, .httpSleep attempt (pyMax 2 rw) :: r.2.2)
      else if 500 ≤ st ∧ st < 600 then
        let r := openrouterGo f (attempt + 1) fuel
        (r.1, r.2.1 + 1, .httpSleep attempt (pyMax 2 (pyMin 10 rw)) :: r.2.2)
      else ((if body = "" then "HTTP_" ++ toString st else body), 1, [])

/-- Model of `_openrouter_request`: `for attempt in range(1, 6)` with the oracle `f`
giving each attempt's network outcome. -/
def openrouter_request (f : ℕ → AttemptOutcome) : String × ℕ × List SleepEvent :=
  openrouterGo f 1 5

/-- An outcome the loop retries: network error, HTTP 429, or HTTP 5xx. -/
def retryable : AttemptOutcome → Prop
  | .netError => True
  | .response st _ _ _ => st = 429 ∨ (500 ≤ st ∧ st < 600)

lemma openrouterGo_attempts_le (f : ℕ → AttemptOutcome) :
    ∀ fuel attempt, (openrouterGo f attempt fuel).2.1 ≤ fuel := by
  intro fuel
  induction fuel with
  | zero => intro attempt; simp [openrouterGo]
  | succ n ih =>
    intro attempt
    rcases hf : f attempt with _ | ⟨st, body, content, rw⟩
    · simpa [openrouterGo, hf] using Nat.succ_le_succ (ih (attempt + 1))
    · by_cases h1 : 200 ≤ st ∧ st < 300
      · simp [openrouterGo, hf, h1]
      · by_cases h2 : st = 429
        · simpa [openrouterGo, hf, h1, h2] using Nat.succ_le_succ (ih (attempt + 1))
        · by_cases h3 : 500 ≤ st ∧ st < 600
          · simpa [openrouterGo, hf, h1, h2, h3] using Nat.succ_le_succ (ih (attempt + 1))
          · simp [openrouterGo, hf, h1, h2, h3]

lemma openrouterGo_exhaust (f : ℕ → AttemptOutcome) :
    ∀ fuel attempt, (∀ i, attempt ≤ i → i < attempt + fuel → retryable (f i)) →
      (openrouterGo f attempt fuel).1 = "" := by
  intro fuel
  induction fuel with
  | zero => intro attempt _; simp [openrouterGo]
  | succ n ih =>
    intro attempt hr
    have hcur : retryable (f attempt) := hr attempt le_rfl (by omega)
    have hrec : ∀ i, attempt + 1 ≤ i → i < attempt + 1 + n → retryable (f i) := by
      intro i h1 h2
      exact hr i (by omega) (by omega)
    rcases hf : f attempt with _ | ⟨st, body, content, rw⟩
    · simpa [openrouterGo, hf] using ih (attempt + 1) hrec
    · rw [hf] at hcur
      rcases hcur with h2 | h3
      · have h1 : ¬ (200 ≤ st ∧ st < 300) := by omega
        simpa [openrouterGo, hf, h1, h2] using ih (attempt + 1) hrec
      · have h1 : ¬ (200 ≤ st ∧ st < 300) := by omega
        have h2 : ¬ st = 429 := by omega
        simpa [openrouterGo, hf, h1, h2, h3] using ih (attempt + 1) hrec

lemma openrouterGo_netSleep (f : ℕ → AttemptOutcome) :
    ∀ fuel attempt e, e ∈ (openrouterGo f attempt fuel).2.2 →
      ∀ a d, e = .netSleep a d → d = netBackoff a := by
  intro fuel
  induction fuel with
  | zero => intro attempt e he; simp [openrouterGo] at he
  | succ n ih =>
    intro attempt e he a d had
    rcases hf : f attempt with _ | ⟨st, body, content, rw⟩
    · simp only [openrouterGo, hf] at he
      rcases List.mem_cons.mp he with h1 | h1
      · subst had
        obtain ⟨h2, h3⟩ := SleepEvent.netSleep.inj h1
        rw [h3, h2]
      · exact ih (attempt + 1) e h1 a d had
    · simp only [openrouterGo, hf] at he
      by_cases h1 : 200 ≤ st ∧ st < 300
      · simp [h1] at he
      · rw [if_neg h1] at he
        by_cases h2 : st = 429
        · rw [if_pos h2] at he
          rcases List.mem_cons.mp he with h4 | h4
          · rw [h4] at had; exact absurd had (by simp)
          · exact ih (attempt + 1) e h4 a d had
        · rw [if_neg h2] at he
          by_cases h3 : 500 ≤ st ∧ st < 600
          · rw [if_pos h3] at he
            rcases List.mem_cons.mp he with h4 | h4
            · rw [h4] at had; exact absurd had (by simp)
            · exact ih (attempt + 1) e h4 a d had
          · simp [h3] at he

/-- C5: the client makes at most 5 attempts; every network-failure sleep is
the linear backoff `min(12, 1.5 * attempt)`; and when all five attempts hit
a retryable outcome (network error, HTTP 429, or 5xx) the call returns the
empty string instead of raising. -/
theorem c5_retry_contract (f : ℕ → AttemptOutcome) :
    (openrouter_request f).2.1 ≤ 5 ∧
    (∀ e ∈ (openrouter_request f).2.2, ∀ a d, e = .netSleep a d →
      d = pyMin 12 (mkRat (3 * a) 2)) ∧
    ((∀ i, 1 ≤ i → i ≤ 5 → retryable (f i)) → (openrouter_request f).1 = "") := by
  refine ⟨openrouterGo_attempts_le f 5 1, ?_, ?_⟩
  · intro e he a d had
    exact openrouterGo_netSleep f 5 1 e he a d had
  · intro hr
    exact openrouterGo_exhaust f 5 1 (fun i h1 h2 => hr i h1 (by omega))

/-- Witness for C5: five straight network errors consume 5 attempts, sleep
the linear backoff each time, and yield the empty string. -/
theorem c5_retry_contract_witness :
    (openrouter_request (fun _ => .netError)).1 = "" ∧
    (openrouter_request (fun _ => .netError)).2.1 ≤ 5 :=
  ⟨(c5_retry_contract (fun _ => .netError)).2.2 (fun _ _ _ => trivial),
   (c5_retry_contract (fun _ => .netError)).1⟩

/-- C6 (amended): a response whose status is neither 2xx nor 429 nor 5xx
returns immediately (one attempt, no sleeps) through the normal return
channel, carrying the response body when it is non-empty and the sentinel
`"HTTP_<status>"` only when the body is empty (`return r.text or
f"HTTP_{r.status_code}"`). -/
lemma openrouterGo_non_retryable (f : ℕ → AttemptOutcome) (st : ℕ) (body : String)
    (content : Option String) (rw : ℚ)
    (h1 : ¬ (200 ≤ st ∧ st < 300)) (h2 : st ≠ 429) (h3 : ¬ (500 ≤ st ∧ st < 600)) :
    ∀ (fuel attempt k : ℕ), attempt ≤ k → k < attempt + fuel →
      (∀ i, attempt ≤ i → i < k → retryable (f i)) →
      f k = .response st body content rw →
      (openrouterGo f attempt fuel).1 =
        (if body = "" then "HTTP_" ++ toString st else body) ∧
      (openrouterGo f attempt fuel).2.1 = k - attempt + 1 := by
  intro fuel
  induction fuel with
  | zero => intro attempt k hak hlt _ _; omega
  | succ n ih =>
    intro attempt k hak hlt hpre hfk
    by_cases hek : attempt = k
    · subst hek
      constructor
      · simp [openrouterGo, hfk, h1, h2, h3]
      · simp [openrouterGo, hfk, h1, h2, h3]
    · have hlt2 : attempt < k := lt_of_le_of_ne hak hek
      have hcur : retryable (f attempt) := hpre attempt le_rfl hlt2
      have hrec := ih (attempt + 1) k (by omega) (by omega)
        (fun i hi1 hi2 => hpre i (by omega) hi2) hfk
      rcases hfa : f attempt with _ | ⟨st', body', content', rw'⟩
      · constructor
        · simpa [openrouterGo, hfa] using hrec.1
        · have hcount := hrec.2
          simp only [openrouterGo, hfa]
          omega
      · rw [hfa] at hcur
        rcases hcur with hc1 | hc2
        · have hn2xx : ¬ (200 ≤ st' ∧ st' < 300) := by omega
          constructor
          · simpa [openrouterGo, hfa, hn2xx, hc1] using hrec.1
          · have hcount := hrec.2
            simp only [openrouterGo, hfa]
            simp only [if_neg hn2xx, if_pos hc1]
            omega
        · have hn2xx : ¬ (200 ≤ st' ∧ st' < 300) := by omega
          have hn429 : ¬ st' = 429 := by omega
          constructor
          · simpa [openrouterGo, hfa, hn2xx, hn429, hc2] using hrec.1
          · have hcount := hrec.2
            simp only [openrouterGo, hfa]
            simp only [if_neg hn2xx, if_neg hn429, if_pos hc2]
            omega

/-- C6 (amended): when some attempt `k` (after only retryable outcomes)
receives a status that is neither 2xx nor 429 nor 5xx, the client returns
at that point — exactly `k` attempts, none after the failing one — through
the normal return channel, carrying the response body when it is non-empty
and the sentinel `"HTTP_<status>"` only when the body is empty
(`return r.text or f"HTTP_{r.status_code}"`, line 721). -/
theorem c6_non_retryable (f : ℕ → AttemptOutcome) (k st : ℕ) (body : String)
    (content : Option String) (rw : ℚ)
    (hk1 : 1 ≤ k) (hk5 : k ≤ 5)
    (hpre : ∀ i, 1 ≤ i → i < k → retryable (f i))
    (hf : f k = .response st body content rw)
    (h1 : ¬ (200 ≤ st ∧ st < 300)) (h2 : st ≠ 429) (h3 : ¬ (500 ≤ st ∧ st < 600)) :
    (openrouter_request f).1 = (if body = "" then "HTTP_" ++ toString st else body) ∧
    (openrouter_request f).2.1 = k := by
  have h := openrouterGo_non_retryable f st body content rw h1 h2 h3 5 1 k hk1
    (by omega) (fun i hi1 hi2 => hpre i hi1 hi2) hf
  refine ⟨h.1, ?_⟩
  have := h.2
  rw [openrouter_request]
  omega

/-- Witness for C6 (amended): a 404 with empty body on the first attempt
returns the sentinel "HTTP_404" after exactly one attempt. -/
theorem c6_non_retryable_witness :
    (openrouter_request (fun _ => .response 404 "" none 0)).1 = "HTTP_404" ∧
    (openrouter_request (fun _ => .response 404 "" none 0)).2.1 = 1 := by
  have h := c6_non_retryable (fun _ => .response 404 "" none 0) 1 404 "" none 0
    (by omega) (by omega) (fun i hi1 hi2 => absurd hi2 (by omega)) rfl
    (by omega) (by omega) (by omega)
  exact ⟨by rw [h.1]; rfl, h.2⟩

/-- Counterexample to C6 as stated: a 404 whose body is "not found" returns
that body, which contains no digit at all and hence cannot embed the status
code 404; the sentinel is returned only for empty bodies. -/
theorem c6_counterexample :
    (openrouter_request (fun _ => .response 404 "not found" none 0)).1 = "not found" ∧
    ("not found").toList.all (fun c => ¬ c.isDigit) = true := by
  constructor
  · rfl
  · decide

/-! ## Cache loading (`run_llm_batch` line 842) -/

/-- Model of `pd.read_csv` on the ledger file's text (no quoted fields in
the modelled domain; pandas' default `skip_blank_lines=True`).  pandas
raises `EmptyDataError` when there are no columns to parse, and
`ParserError` when a data row has more fields than the header. -/
def pdReadCsv (content : String) : Except String (List (List String)) :=
  let ls := (pySplitlines content).filter (fun l => ¬ l = "")
  match ls with
  | [] => .error "EmptyDataError: No columns to parse from file"
  | header :: rows =>
    let hn := (pySplitChar ',' header).length
    if rows.all (fun r => (pySplitChar ',' r).length ≤ hn) then
      .ok ((header :: rows).map (pySplitChar ','))
    else .error "ParserError: too many fields"

/-- The prior-ledger load of `run_llm_batch` line 842:
`pd.read_csv(out_path) if os.path.exists(out_path) else pd.DataFrame()`.
`none` is a missing file; there is no exception handler, so a parse error
propagates (contrast `safe_read_csv` at line 59, which catches it but is
not used here). -/
def loadPrior (file : Option String) : Except String (List (List String)) :=
  match file with
  | none => .ok []
  | some content => pdReadCsv content

/-- C8: the missing-file case yields an empty prior ledger, but a corrupt
cache file raises out of `run_llm_batch`: pandas fails on an empty file and
on a row with more fields than the header, and line 842 has no handler.
This evaluates the load at both failing inputs. -/
theorem c8_cache_load_robustness :
    loadPrior none = .ok [] ∧
    loadPrior (some "") = .error "EmptyDataError: No columns to parse from file" ∧
    loadPrior (some "id,cache_sig\n1,abc,stray,stray") =
      .error "ParserError: too many fields" :=
  ⟨rfl, rfl, rfl⟩

/-! ## Batch orchestrator (`run_llm_batch`, lines 792-1004) -/

/-- One decoded row of the on-disk ledger (columns
`id, llm_label, llm_score, llm_sarcasm, llm_ethics, cache_sig`). -/
structure CacheRec where
  id : ℤ
  llm_label : String
  llm_score : ℚ
  llm_sarcasm : Bool
  llm_ethics : String
  cache_sig : String
deriving Repr, DecidableEq

/-- One row of the orchestrator's returned table: exactly the columns
`id, llm_label, llm_score, llm_sarcasm, llm_ethics, cache_sig, model`. -/
structure OutRec where
  id : ℤ
  llm_label : String
  llm_score : ℚ
  llm_sarcasm : Bool
  llm_ethics : String
  cache_sig : String
  model : String
deriving Repr, DecidableEq

/-- Model of `_hash_sig` (lines 811-813): normalize CR/LF to spaces, strip, then
digest; the truncated SHA-1 is abstracted as `hashFn`. -/
def hash_sig (hashFn : String → String) (text : String) : String :=
  hashFn (pyStrip (replChar '\n' ' ' (replChar '\r' ' ' text)))

/-- The `(id, cache_sig)` cache key of a ledger record. -/
def keyOf (r : CacheRec) : ℤ × String :=
  (r.id, r.cache_sig)

/-- The default record for an id the LLM never answered (line 986). -/
def defaultRec (rid : ℤ) : LabelRec :=
  { id := rid, llm_label := "neutral", llm_score := 0, llm_sarcasm := false,
    llm_ethics := "none" }

/-- The `sig_map` lookup (lines 990-991): the dict comprehension over
`todo` keeps the last row per id; an id absent from `todo` maps to NaN,
which `astype(str)` renders as "nan". -/
def sigOfTodo (todo : List TodoRow) (rid : ℤ) : String :=
  ((todo.reverse.find? (fun r => r.id == rid)).map TodoRow.cache_sig).getD "nan"

/-- Model of `df_out.sort_values("id")` before each write (line 826).  The claims
never depend on the order among equal ids, so a stable insertion sort
stands in for pandas' quicksort. -/
def sortById (l : List CacheRec) : List CacheRec :=
  stableSort (fun a b => a.id ≤ b.id) l

/-- Model of `missing = [rid for rid in ids if rid not in parsed]` (lines 969, 979). -/
def missingOf (ids : List ℤ) (parsed : List LabelRec) : List ℤ :=
  ids.filter (fun rid => (dictFind parsed rid).isNone)

/-- Model of `parsed.update(got)` (line 978): upsert each entry of `got` in order. -/
def updateParsed (parsed got : List LabelRec) : List LabelRec :=
  got.foldl dictUpsert parsed

/-- The run-time state of the chunk loop: the accumulated output frame,
the cache file's content (`none` while absent), whether a write happened,
and the number of network requests made so far (indexing the oracle). -/
structure RunState where
  dfOut : List CacheRec
  disk : Option (List CacheRec)
  wrote : Bool
  calls : ℕ

/-- State of the repair loop over `sub_chunks` (lines 973-981). -/
structure RepairState where
  parsed : List LabelRec
  missing : List ℤ
  passes : ℕ
  stopped : Bool
  calls : ℕ

/-- The repair loop (lines 974-981): for each sub-chunk, stop when nothing
is missing or after 2 passes still missing (`break`), else issue one more
request, merge its parse into `parsed`, and recompute `missing` against the
original chunk ids.  The reply to the n-th request of the run is
`oracle n`; the sub-chunk's ids and user message only shape the request
itself, which the oracle abstracts. -/
def repairGo (oracle : ℕ → Reply) (ids : List ℤ) : List Chunk → RepairState → RepairState
  | [], st => st
  | _ :: rest, st =>
    if st.stopped ∨ st.missing.isEmpty then st
    else
      let got := parse_block (oracle st.calls)
      let parsed := updateParsed st.parsed got
      let missing := missingOf ids parsed
      repairGo oracle ids rest
        { parsed := parsed, missing := missing, passes := st.passes + 1,
          stopped := 2 ≤ st.passes + 1 ∧ ¬ missing.isEmpty, calls := st.calls + 1 }

/-- The parse-and-repair stage of one chunk (lines 968-981): the first
request's parse, then — when ids are missing — the repair loop over the
re-chunked missing rows.  Returns the final parsed dict and the updated
request count. -/
def chunkParsed (oracle : ℕ → Reply) (mpc : ℤ) (sysLen : ℕ) (todo : List TodoRow)
    (calls0 : ℕ) (ids : List ℤ) : List LabelRec × ℕ :=
  let parsed0 := parse_block (oracle calls0)
  let missing0 := missingOf ids parsed0
  if missing0.isEmpty then (parsed0, calls0 + 1)
  else
    let frame := (missing0.map (fun rid => todo.filter (fun r => r.id == rid))).flatten
    let rs := repairGo oracle ids (build_chunks mpc sysLen frame)
      { parsed := parsed0, missing := missing0, passes := 0, stopped := false,
        calls := calls0 + 1 }
    (rs.parsed, rs.calls)

/-- Default every still-missing id to neutral (lines 984-986). -/
def fillDefaults (ids : List ℤ) (parsed : List LabelRec) : List LabelRec :=
  ids.foldl (fun p rid => if (dictFind p rid).isNone then p ++ [defaultRec rid] else p) parsed

/-- Model of `rows = [parsed[rid] for rid in ids]` with the cache signature attached
(lines 988-991).  After `fillDefaults` the lookup always succeeds, so the
`getD` default coincides with Python's total indexing. -/
def chunkRowsOf (todo : List TodoRow) (ids : List ℤ) (parsed : List LabelRec) :
    List CacheRec :=
  (ids.map (fun rid => (dictFind parsed rid).getD (defaultRec rid))).map (fun r =>
    { id := r.id, llm_label := r.llm_label, llm_score := r.llm_score,
      llm_sarcasm := r.llm_sarcasm, llm_ethics := r.llm_ethics,
      cache_sig := sigOfTodo todo r.id })

/-- Processing of one chunk (lines 967-1001): request and parse, repair the
missing ids via re-chunked sub-requests, default the still-missing ids to
neutral, attach cache signatures, drop rows whose key is already in
`df_out`, append, and write the sorted frame to disk. -/
def processChunk (oracle : ℕ → Reply) (mpc : ℤ) (sysLen : ℕ) (todo : List TodoRow)
    (st : RunState) (c : Chunk) : RunState :=
  let pc := chunkParsed oracle mpc sysLen todo st.calls c.ids
  let chunkRows := chunkRowsOf todo c.ids (fillDefaults c.ids pc.1)
  let newRows :=
    if st.dfOut.isEmpty then chunkRows
    else chunkRows.filter
      (fun r => !(st.dfOut.any (fun p => p.id == r.id && p.cache_sig == r.cache_sig)))
  let dfOut := st.dfOut ++ newRows
  { dfOut := dfOut, disk := some (sortById dfOut), wrote := true, calls := pc.2 }

/-- The `base` frame (lines 829-834): each input row with its content
signature.  The numeric coercion of malformed ids happens upstream of the
modelled domain; ids arrive as integers. -/
def baseOf (hashFn : String → String) (input : List (ℤ × String)) : List TodoRow :=
  input.map (fun p => { id := p.1, text := p.2, cache_sig := hash_sig hashFn p.2 })

/-- The cache diff (lines 848-850): keep the rows whose `(id, cache_sig)`
is not in the prior ledger. -/
def todoOf (prior : List CacheRec) (base : List TodoRow) : List TodoRow :=
  base.filter (fun r => !(prior.any (fun p => p.id == r.id && p.cache_sig == r.cache_sig)))

/-- What a call to the orchestrator produces: the returned table, the cache
file's content afterwards, and whether the file was read / written. -/
structure RunOut where
  output : List OutRec
  disk : Option (List CacheRec)
  readDisk : Bool
  wroteDisk : Bool
deriving Repr, DecidableEq

/-- Tag a ledger record with the model column (lines 953, 1003). -/
def outOf (model : String) (r : CacheRec) : OutRec :=
  { id := r.id, llm_label := r.llm_label, llm_score := r.llm_score,
    llm_sarcasm := r.llm_sarcasm, llm_ethics := r.llm_ethics,
    cache_sig := r.cache_sig, model := model }

/-- The chunk loop (lines 967-1001) as a fold, started from the prior
ledger frame with zero calls made. -/
def runFold (oracle : ℕ → Reply) (mpc : ℤ) (sysLen : ℕ) (prior : List CacheRec)
    (disk0 : Option (List CacheRec)) (todo : List TodoRow) : RunState :=
  (build_chunks mpc sysLen todo).foldl (processChunk oracle mpc sysLen todo)
    { dfOut := prior, disk := disk0, wrote := false, calls := 0 }

/-- Model of `run_llm_batch` (lines 792-1004).  The empty-input guard (line 808)
returns the empty 7-column table before any filesystem access; otherwise
the prior ledger is read (a missing file acting as an empty one, see
`loadPrior` for the corrupt-file behavior), the uncached rows are chunked,
and each chunk is processed and persisted in turn. -/
def run_llm_batch (hashFn : String → String) (oracle : ℕ → Reply) (mpc : ℤ) (sysLen : ℕ)
    (model : String) (disk : Option (List CacheRec)) (input : List (ℤ × String)) : RunOut :=
  if input.isEmpty then { output := [], disk := disk, readDisk := false, wroteDisk := false }
  else if (todoOf (disk.getD []) (baseOf hashFn input)).isEmpty then
    { output := (disk.getD []).map (outOf model), disk := disk, readDisk := true,
      wroteDisk := false }
  else
    { output := (runFold oracle mpc sysLen (disk.getD []) disk
        (todoOf (disk.getD []) (baseOf hashFn input))).dfOut.map (outOf model),
      disk := (runFold oracle mpc sysLen (disk.getD []) disk
        (todoOf (disk.getD []) (baseOf hashFn input))).disk,
      readDisk := true,
      wroteDisk := (runFold oracle mpc sysLen (disk.getD []) disk
        (todoOf (disk.getD []) (baseOf hashFn input))).wrote }

/-! ## Orchestrator lemmas -/

lemma dictFind_id {d : List LabelRec} {rid : ℤ} {r : LabelRec}
    (h : dictFind d rid = some r) : r.id = rid := by
  have := List.find?_some h
  simpa using this

lemma rowRec_id (parsed : List LabelRec) (rid : ℤ) :
    ((dictFind parsed rid).getD (defaultRec rid)).id = rid := by
  rcases h : dictFind parsed rid with _ | r
  · simp [defaultRec]
  · simpa using dictFind_id h

lemma chunkRowsOf_cons (todo : List TodoRow) (rid : ℤ) (t : List ℤ)
    (parsed : List LabelRec) :
    chunkRowsOf todo (rid :: t) parsed =
      { id := ((dictFind parsed rid).getD (defaultRec rid)).id,
        llm_label := ((dictFind parsed rid).getD (defaultRec rid)).llm_label,
        llm_score := ((dictFind parsed rid).getD (defaultRec rid)).llm_score,
        llm_sarcasm := ((dictFind parsed rid).getD (defaultRec rid)).llm_sarcasm,
        llm_ethics := ((dictFind parsed rid).getD (defaultRec rid)).llm_ethics,
        cache_sig := sigOfTodo todo ((dictFind parsed rid).getD (defaultRec rid)).id } ::
      chunkRowsOf todo t parsed :=
  rfl

lemma chunkRowsOf_ids (todo : List TodoRow) (ids : List ℤ) (parsed : List LabelRec) :
    (chunkRowsOf todo ids parsed).map CacheRec.id = ids := by
  induction ids with
  | nil => rfl
  | cons rid t ih =>
    rw [chunkRowsOf_cons]
    simp [rowRec_id, ih]

lemma chunkRowsOf_sig (todo : List TodoRow) (ids : List ℤ) (parsed : List LabelRec) :
    ∀ r ∈ chunkRowsOf todo ids parsed, r.cache_sig = sigOfTodo todo r.id := by
  induction ids with
  | nil => intro r hr; simp [chunkRowsOf] at hr
  | cons rid t ih =>
    intro r hr
    rw [chunkRowsOf_cons] at hr
    rcases List.mem_cons.mp hr with h | h
    · rw [h]
    · exact ih r h

lemma keys_of_sig {todo : List TodoRow} {B : List CacheRec}
    (h : ∀ r ∈ B, r.cache_sig = sigOfTodo todo r.id) :
    B.map keyOf = (B.map CacheRec.id).map (fun i => (i, sigOfTodo todo i)) := by
  rw [List.map_map]
  refine List.map_congr_left ?_
  intro r hr
  simp [keyOf, Function.comp, h r hr]

lemma insertAfterEq_perm (le : α → α → Bool) :
    ∀ (ys : List α) (x : α), (insertAfterEq le ys x).Perm (x :: ys) := by
  intro ys
  induction ys with
  | nil => intro x; simp [insertAfterEq]
  | cons y t ih =>
    intro x
    unfold insertAfterEq
    by_cases h : le y x
    · rw [if_pos h]
      exact ((ih x).cons y).trans (List.Perm.swap x y t)
    · rw [if_neg h]

lemma stableSort_perm (le : α → α → Bool) (l : List α) : (stableSort le l).Perm l := by
  have main : ∀ (l acc : List α), (l.foldl (insertAfterEq le) acc).Perm (acc ++ l) := by
    intro l
    induction l with
    | nil => intro acc; simp
    | cons x t ih =>
      intro acc
      have h1 := ih (insertAfterEq le acc x)
      refine h1.trans ?_
      have h2 : (insertAfterEq le acc x).Perm (x :: acc) := insertAfterEq_perm le acc x
      refine (h2.append_right t).trans ?_
      simpa using List.perm_middle.symm
  have := main l []
  simpa [stableSort] using this

lemma sortById_perm (l : List CacheRec) : (sortById l).Perm l :=
  stableSort_perm _ l

lemma sigOfTodo_of_mem {todo : List TodoRow}
    (hnd : (todo.map TodoRow.id).Nodup) {t : TodoRow} (ht : t ∈ todo) :
    sigOfTodo todo t.id = t.cache_sig := by
  unfold sigOfTodo
  rcases h : todo.reverse.find? (fun r => r.id == t.id) with _ | r
  · exfalso
    have := List.find?_eq_none.mp h t (by simpa using ht)
    simp at this
  · have hmem : r ∈ todo := by
      have := List.mem_of_find?_eq_some h
      simpa using this
    have hid : r.id = t.id := by simpa using List.find?_some h
    have hrt : r = t := List.inj_on_of_nodup_map hnd hmem ht hid
    rw [h]
    simp [hrt]

lemma mem_todo_key {prior : List CacheRec} {base : List TodoRow} {t : TodoRow}
    (ht : t ∈ todoOf prior base) :
    ((t.id, t.cache_sig) : ℤ × String) ∉ prior.map keyOf := by
  intro hk
  obtain ⟨p, hp, he⟩ := List.mem_map.mp hk
  have hpred := List.of_mem_filter ht
  have hid : p.id = t.id := congrArg Prod.fst he
  have hsig : p.cache_sig = t.cache_sig := congrArg Prod.snd he
  have hfalse : ¬ (p.id == t.id && p.cache_sig == t.cache_sig) = true := by
    intro hx
    simp only [Bool.not_eq_eq_eq_not, Bool.not_true, List.any_eq_false,
      Bool.and_eq_true, beq_iff_eq] at hpred
    exact hpred p hp (by simpa using hx)
  exact hfalse (by simp [hid, hsig])

lemma not_mem_keys_pred {dfOut : List CacheRec} {r : CacheRec}
    (h : keyOf r ∉ dfOut.map keyOf) :
    (!(dfOut.any (fun p => p.id == r.id && p.cache_sig == r.cache_sig))) = true := by
  simp only [Bool.not_eq_true', List.any_eq_false, Bool.and_eq_true, beq_iff_eq, not_and]
  intro p hp h1 h2
  exact h (List.mem_map.mpr ⟨p, hp, by simp [keyOf, h1, h2]⟩)

lemma processChunk_spec (oracle : ℕ → Reply) (mpc : ℤ) (sysLen : ℕ) (todo : List TodoRow)
    (st : RunState) (c : Chunk)
    (hfresh : ∀ rid ∈ c.ids, ((rid, sigOfTodo todo rid) : ℤ × String) ∉ st.dfOut.map keyOf) :
    (processChunk oracle mpc sysLen todo st c).dfOut =
      st.dfOut ++ chunkRowsOf todo c.ids
        (fillDefaults c.ids (chunkParsed oracle mpc sysLen todo st.calls c.ids).1) ∧
    (processChunk oracle mpc sysLen todo st c).disk =
      some (sortById ((processChunk oracle mpc sysLen todo st c).dfOut)) ∧
    (processChunk oracle mpc sysLen todo st c).wrote = true := by
  refine ⟨?_, rfl, rfl⟩
  have hd : (processChunk oracle mpc sysLen todo st c).dfOut =
      st.dfOut ++
        (if st.dfOut.isEmpty then
          chunkRowsOf todo c.ids
            (fillDefaults c.ids (chunkParsed oracle mpc sysLen todo st.calls c.ids).1)
         else
          (chunkRowsOf todo c.ids
            (fillDefaults c.ids (chunkParsed oracle mpc sysLen todo st.calls c.ids).1)).filter
            (fun r => !(st.dfOut.any
              (fun p => p.id == r.id && p.cache_sig == r.cache_sig)))) := rfl
  rw [hd]
  congr 1
  by_cases he : st.dfOut.isEmpty
  · rw [if_pos he]
  · rw [if_neg he]
    apply List.filter_eq_self.mpr
    intro r hr
    have hid : r.id ∈ c.ids := by
      rw [← chunkRowsOf_ids todo c.ids
        (fillDefaults c.ids (chunkParsed oracle mpc sysLen todo st.calls c.ids).1)]
      exact List.mem_map_of_mem CacheRec.id hr
    have hsig := chunkRowsOf_sig todo c.ids
      (fillDefaults c.ids (chunkParsed oracle mpc sysLen todo st.calls c.ids).1) r hr
    have hk := hfresh r.id hid
    rw [← hsig] at hk
    exact not_mem_keys_pred hk

lemma foldChunks_spec (oracle : ℕ → Reply) (mpc : ℤ) (sysLen : ℕ) (todo : List TodoRow) :
    ∀ (CS : List Chunk) (st : RunState),
      (st.dfOut.map keyOf).Nodup →
      (∀ c ∈ CS, ∀ rid ∈ c.ids,
        ((rid, sigOfTodo todo rid) : ℤ × String) ∉ st.dfOut.map keyOf) →
      ((CS.map Chunk.ids).flatten).Nodup →
      ∃ B : List CacheRec,
        (CS.foldl (processChunk oracle mpc sysLen todo) st).dfOut = st.dfOut ++ B ∧
        B.map CacheRec.id = (CS.map Chunk.ids).flatten ∧
        (∀ r ∈ B, r.cache_sig = sigOfTodo todo r.id) ∧
        (((CS.foldl (processChunk oracle mpc sysLen todo) st).dfOut).map keyOf).Nodup ∧
        (CS.foldl (processChunk oracle mpc sysLen todo) st).disk =
          (if CS.isEmpty then st.disk else
            some (sortById ((CS.foldl (processChunk oracle mpc sysLen todo) st).dfOut))) ∧
        (CS.foldl (processChunk oracle mpc sysLen todo) st).wrote =
          (st.wrote || !CS.isEmpty) := by
  intro CS
  induction CS with
  | nil =>
    intro st h1 h2 h3
    exact ⟨[], by simp, by simp, by simp, by simpa using h1, by simp, by simp⟩
  | cons c rest ih =>
    intro st h1 h2 h3
    have hnd3 := h3
    rw [List.map_cons, List.flatten_cons, List.nodup_append] at hnd3
    obtain ⟨hcnd, hrestnd, hdisj⟩ := hnd3
    have hfresh : ∀ rid ∈ c.ids,
        ((rid, sigOfTodo todo rid) : ℤ × String) ∉ st.dfOut.map keyOf :=
      fun rid hrid => h2 c (List.mem_cons_self c rest) rid hrid
    obtain ⟨hdf, hdisk, hwrote⟩ := processChunk_spec oracle mpc sysLen todo st c hfresh
    have hB1ids := chunkRowsOf_ids todo c.ids
      (fillDefaults c.ids (chunkParsed oracle mpc sysLen todo st.calls c.ids).1)
    have hB1sig := chunkRowsOf_sig todo c.ids
      (fillDefaults c.ids (chunkParsed oracle mpc sysLen todo st.calls c.ids).1)
    have hB1keys : (chunkRowsOf todo c.ids
        (fillDefaults c.ids (chunkParsed oracle mpc sysLen todo st.calls c.ids).1)).map keyOf =
        c.ids.map (fun i => (i, sigOfTodo todo i)) := by
      rw [keys_of_sig hB1sig, hB1ids]
    have hinj : Function.Injective (fun i : ℤ => ((i, sigOfTodo todo i) : ℤ × String)) := by
      intro a b hab
      simpa using congrArg Prod.fst hab
    have hkeysnd : ((st.dfOut ++ chunkRowsOf todo c.ids
        (fillDefaults c.ids (chunkParsed oracle mpc sysLen todo st.calls c.ids).1)).map
          keyOf).Nodup := by
      rw [List.map_append, hB1keys]
      refine List.nodup_append.mpr ⟨h1, hcnd.map hinj, ?_⟩
      intro a ha hb
      obtain ⟨i, hi, he⟩ := List.mem_map.mp hb
      exact hfresh i hi (he ▸ ha)
    have h1' : ((processChunk oracle mpc sysLen todo st c).dfOut.map keyOf).Nodup := by
      rw [hdf]; exact hkeysnd
    have h2' : ∀ c' ∈ rest, ∀ rid ∈ c'.ids,
        ((rid, sigOfTodo todo rid) : ℤ × String) ∉
          (processChunk oracle mpc sysLen todo st c).dfOut.map keyOf := by
      intro c' hc' rid hrid
      rw [hdf, List.map_append]
      intro hmem
      rcases List.mem_append.mp hmem with hm | hm
      · exact h2 c' (List.mem_cons_of_mem c hc') rid hrid hm
      · rw [hB1keys] at hm
        obtain ⟨i, hi, he⟩ := List.mem_map.mp hm
        have : i = rid := by simpa using congrArg Prod.fst he
        subst this
        refine hdisj hi ?_
        exact List.mem_flatten.mpr ⟨c'.ids, List.mem_map_of_mem Chunk.ids hc', hrid⟩
    obtain ⟨B2, ih1, ih2, ih3, ih4, ih5, ih6⟩ :=
      ih (processChunk oracle mpc sysLen todo st c) h1' h2' hrestnd
    refine ⟨chunkRowsOf todo c.ids
      (fillDefaults c.ids (chunkParsed oracle mpc sysLen todo st.calls c.ids).1) ++ B2,
      ?_, ?_, ?_, ?_, ?_, ?_⟩
    · rw [List.foldl_cons, ih1, hdf, List.append_assoc]
    · rw [List.map_append, hB1ids, List.map_cons, List.flatten_cons, ih2]
    · intro r hr
      rcases List.mem_append.mp hr with hm | hm
      · exact hB1sig r hm
      · exact ih3 r hm
    · rw [List.foldl_cons]; exact ih4
    · rw [List.foldl_cons]
      have hcond : ¬ (((c :: rest).isEmpty : Bool) = true) := by simp
      rw [if_neg hcond]
      by_cases hre : rest.isEmpty = true
      · have hre' : rest = [] := List.isEmpty_iff.mp hre
        subst hre'
        simpa using hdisk
      · rw [ih5, if_neg hre]
    · rw [List.foldl_cons, ih6, hwrote]
      simp

lemma runFold_def (oracle : ℕ → Reply) (mpc : ℤ) (sysLen : ℕ) (prior : List CacheRec)
    (disk0 : Option (List CacheRec)) (todo : List TodoRow) :
    runFold oracle mpc sysLen prior disk0 todo =
      (build_chunks mpc sysLen todo).foldl (processChunk oracle mpc sysLen todo)
        { dfOut := prior, disk := disk0, wrote := false, calls := 0 } :=
  rfl

lemma baseOf_ids (hashFn : String → String) (input : List (ℤ × String)) :
    (baseOf hashFn input).map TodoRow.id = input.map Prod.fst := by
  rw [baseOf, List.map_map]
  rfl

lemma todo_ids_nodup (hashFn : String → String) {input : List (ℤ × String)}
    (hids : (input.map Prod.fst).Nodup) (prior : List CacheRec) :
    ((todoOf prior (baseOf hashFn input)).map TodoRow.id).Nodup := by
  have hsub : List.Sublist ((todoOf prior (baseOf hashFn input)).map TodoRow.id)
      ((baseOf hashFn input).map TodoRow.id) :=
    (List.filter_sublist _).map TodoRow.id
  have hbase : ((baseOf hashFn input).map TodoRow.id).Nodup := by
    rw [baseOf_ids]; exact hids
  exact hbase.sublist hsub

lemma run_spec (hashFn : String → String) (oracle : ℕ → Reply) (mpc : ℤ) (sysLen : ℕ)
    (model : String) (disk : Option (List CacheRec)) (input : List (ℤ × String))
    (hids : (input.map Prod.fst).Nodup)
    (hpk : ((disk.getD []).map keyOf).Nodup)
    (hne : input.isEmpty = false)
    (hnt : (todoOf (disk.getD []) (baseOf hashFn input)).isEmpty = false) :
    ∃ A : List CacheRec,
      (run_llm_batch hashFn oracle mpc sysLen model disk input).output =
        ((disk.getD []) ++ A).map (outOf model) ∧
      A.map CacheRec.id = (todoOf (disk.getD []) (baseOf hashFn input)).map TodoRow.id ∧
      (∀ r ∈ A, ∃ t ∈ todoOf (disk.getD []) (baseOf hashFn input),
        r.id = t.id ∧ r.cache_sig = t.cache_sig) ∧
      (((disk.getD []) ++ A).map keyOf).Nodup ∧
      (run_llm_batch hashFn oracle mpc sysLen model disk input).disk =
        some (sortById ((disk.getD []) ++ A)) := by
  have hTodoNd := todo_ids_nodup hashFn hids (disk.getD [])
  have hflat : (((build_chunks mpc sysLen
      (todoOf (disk.getD []) (baseOf hashFn input))).map Chunk.ids).flatten).Nodup := by
    rw [build_chunks_ids]; exact hTodoNd
  have hfresh0 : ∀ c ∈ build_chunks mpc sysLen (todoOf (disk.getD []) (baseOf hashFn input)),
      ∀ rid ∈ c.ids,
        ((rid, sigOfTodo (todoOf (disk.getD []) (baseOf hashFn input)) rid) : ℤ × String) ∉
          (disk.getD []).map keyOf := by
    intro c hc rid hrid
    have hmemflat : rid ∈ ((build_chunks mpc sysLen
        (todoOf (disk.getD []) (baseOf hashFn input))).map Chunk.ids).flatten :=
      List.mem_flatten.mpr ⟨c.ids, List.mem_map_of_mem Chunk.ids hc, hrid⟩
    rw [build_chunks_ids] at hmemflat
    obtain ⟨t, ht, hid⟩ := List.mem_map.mp hmemflat
    have hsig : sigOfTodo (todoOf (disk.getD []) (baseOf hashFn input)) rid = t.cache_sig := by
      rw [← hid]; exact sigOfTodo_of_mem hTodoNd ht
    rw [hsig, ← hid]
    exact mem_todo_key ht
  obtain ⟨A, k1, k2, k3, k4, k5, k6⟩ := foldChunks_spec oracle mpc sysLen
    (todoOf (disk.getD []) (baseOf hashFn input))
    (build_chunks mpc sysLen (todoOf (disk.getD []) (baseOf hashFn input)))
    { dfOut := disk.getD [], disk := disk, wrote := false, calls := 0 }
    hpk hfresh0 hflat
  have hCSne : (build_chunks mpc sysLen
      (todoOf (disk.getD []) (baseOf hashFn input))).isEmpty = false := by
    by_contra hc
    have hc' : build_chunks mpc sysLen (todoOf (disk.getD []) (baseOf hashFn input)) = [] := by
      rcases hx : build_chunks mpc sysLen (todoOf (disk.getD []) (baseOf hashFn input)) with
        _ | _
      · rfl
      · rw [hx] at hc; simp at hc
    have := build_chunks_ids mpc sysLen (todoOf (disk.getD []) (baseOf hashFn input))
    rw [hc'] at this
    have hmap : (todoOf (disk.getD []) (baseOf hashFn input)).map TodoRow.id = [] := this.symm
    have : todoOf (disk.getD []) (baseOf hashFn input) = [] := List.map_eq_nil_iff.mp hmap
    rw [this] at hnt
    simp at hnt
  have hrun : run_llm_batch hashFn oracle mpc sysLen model disk input =
      { output := (runFold oracle mpc sysLen (disk.getD []) disk
          (todoOf (disk.getD []) (baseOf hashFn input))).dfOut.map (outOf model),
        disk := (runFold oracle mpc sysLen (disk.getD []) disk
          (todoOf (disk.getD []) (baseOf hashFn input))).disk,
        readDisk := true,
        wroteDisk := (runFold oracle mpc sysLen (disk.getD []) disk
          (todoOf (disk.getD []) (baseOf hashFn input))).wrote } := by
    unfold run_llm_batch
    rw [if_neg (by simp [hne]), if_neg (by simp [hnt])]
  refine ⟨A, ?_, ?_, ?_, ?_, ?_⟩
  · rw [hrun]
    show (runFold oracle mpc sysLen (disk.getD []) disk
      (todoOf (disk.getD []) (baseOf hashFn input))).dfOut.map (outOf model) = _
    rw [runFold_def, k1]
  · rw [k2, build_chunks_ids]
  · intro r hr
    have hsig := k3 r hr
    have hmem : r.id ∈ A.map CacheRec.id := List.mem_map_of_mem CacheRec.id hr
    rw [k2, build_chunks_ids] at hmem
    obtain ⟨t, ht, hid⟩ := List.mem_map.mp hmem
    refine ⟨t, ht, hid.symm, ?_⟩
    rw [hsig, ← hid]
    exact sigOfTodo_of_mem hTodoNd ht
  · rw [k1] at k4
    exact k4
  · rw [hrun]
    show (runFold oracle mpc sysLen (disk.getD []) disk
      (todoOf (disk.getD []) (baseOf hashFn input))).disk = _
    rw [runFold_def, k5, if_neg (by simp [hCSne]), k1]

lemma baseOf_keys (hashFn : String → String) (input : List (ℤ × String)) :
    (baseOf hashFn input).map (fun t => ((t.id, t.cache_sig) : ℤ × String)) =
      input.map (fun p => (p.1, hash_sig hashFn p.2)) := by
  rw [baseOf, List.map_map]
  rfl

lemma base_row_unique {hashFn : String → String} {input : List (ℤ × String)}
    (hids : (input.map Prod.fst).Nodup) {t1 t2 : TodoRow}
    (h1 : t1 ∈ baseOf hashFn input) (h2 : t2 ∈ baseOf hashFn input) (h : t1.id = t2.id) :
    t1 = t2 := by
  have hbase : ((baseOf hashFn input).map TodoRow.id).Nodup := by
    rw [baseOf_ids]; exact hids
  exact List.inj_on_of_nodup_map hbase h1 h2 h

lemma prior_ids_nodup {hashFn : String → String} {input : List (ℤ × String)}
    {prior : List CacheRec}
    (hids : (input.map Prod.fst).Nodup)
    (hpk : (prior.map keyOf).Nodup)
    (hsub : ∀ r ∈ prior, keyOf r ∈ input.map (fun p => (p.1, hash_sig hashFn p.2))) :
    (prior.map CacheRec.id).Nodup := by
  have hprior : prior.Nodup := hpk.of_map keyOf
  rw [List.nodup_map_iff_inj_on hprior]
  intro p hp q hq hpq
  have hkp : keyOf p ∈ (baseOf hashFn input).map (fun t => ((t.id, t.cache_sig) : ℤ × String)) := by
    rw [baseOf_keys]; exact hsub p hp
  have hkq : keyOf q ∈ (baseOf hashFn input).map (fun t => ((t.id, t.cache_sig) : ℤ × String)) := by
    rw [baseOf_keys]; exact hsub q hq
  obtain ⟨tp, htp, hep⟩ := List.mem_map.mp hkp
  obtain ⟨tq, htq, heq⟩ := List.mem_map.mp hkq
  have hidp : tp.id = p.id := congrArg Prod.fst hep
  have hidq : tq.id = q.id := congrArg Prod.fst heq
  have : tp = tq := base_row_unique hids htp htq (by rw [hidp, hidq, hpq])
  have hkeq : keyOf p = keyOf q := by rw [← hep, ← heq, this]
  exact List.inj_on_of_nodup_map hpk hp hq hkeq

lemma prior_ids_sub {hashFn : String → String} {input : List (ℤ × String)}
    {prior : List CacheRec}
    (hsub : ∀ r ∈ prior, keyOf r ∈ input.map (fun p => (p.1, hash_sig hashFn p.2))) :
    ∀ i ∈ prior.map CacheRec.id, i ∈ input.map Prod.fst := by
  intro i hi
  obtain ⟨p, hp, he⟩ := List.mem_map.mp hi
  have := hsub p hp
  obtain ⟨q, hq, he2⟩ := List.mem_map.mp this
  have : q.1 = p.id := congrArg Prod.fst he2
  exact List.mem_map.mpr ⟨q, hq, by rw [this, he]⟩

lemma input_id_split (hashFn : String → String) {input : List (ℤ × String)}
    (prior : List CacheRec) {i : ℤ}
    (hi : i ∈ input.map Prod.fst) :
    i ∈ prior.map CacheRec.id ∨
      i ∈ (todoOf prior (baseOf hashFn input)).map TodoRow.id := by
  have hib : i ∈ (baseOf hashFn input).map TodoRow.id := by
    rw [baseOf_ids]; exact hi
  obtain ⟨t, ht, hid⟩ := List.mem_map.mp hib
  by_cases hc : prior.any (fun p => p.id == t.id && p.cache_sig == t.cache_sig) = true
  · left
    obtain ⟨p, hp, hmatch⟩ := List.any_eq_true.mp hc
    have hpid : p.id = t.id := by
      have := hmatch
      simp only [Bool.and_eq_true, beq_iff_eq] at this
      exact this.1
    exact List.mem_map.mpr ⟨p, hp, by rw [hpid, hid]⟩
  · right
    refine List.mem_map.mpr ⟨t, ?_, hid⟩
    exact List.mem_filter.mpr ⟨ht, by simpa using hc⟩

lemma prior_todo_disjoint {hashFn : String → String} {input : List (ℤ × String)}
    {prior : List CacheRec}
    (hids : (input.map Prod.fst).Nodup)
    (hsub : ∀ r ∈ prior, keyOf r ∈ input.map (fun p => (p.1, hash_sig hashFn p.2))) :
    ∀ i ∈ prior.map CacheRec.id,
      i ∉ (todoOf prior (baseOf hashFn input)).map TodoRow.id := by
  intro i hip hit
  obtain ⟨p, hp, hpe⟩ := List.mem_map.mp hip
  obtain ⟨t, ht, hte⟩ := List.mem_map.mp hit
  have htb : t ∈ baseOf hashFn input := List.mem_of_mem_filter ht
  have hkp : keyOf p ∈ (baseOf hashFn input).map (fun b => ((b.id, b.cache_sig) : ℤ × String)) := by
    rw [baseOf_keys]; exact hsub p hp
  obtain ⟨b, hb, hbe⟩ := List.mem_map.mp hkp
  have hbid : b.id = p.id := congrArg Prod.fst hbe
  have hbsig : b.cache_sig = p.cache_sig := congrArg Prod.snd hbe
  have htb2 : t = b := base_row_unique hids htb hb (by rw [hte, hbid, hpe])
  have hpred := List.of_mem_filter ht
  have : prior.any (fun q => q.id == t.id && q.cache_sig == t.cache_sig) = true := by
    refine List.any_eq_true.mpr ⟨p, hp, ?_⟩
    have h1 : p.id = t.id := by rw [← hbid, ← htb2]
    have h2 : p.cache_sig = t.cache_sig := by rw [← hbsig, ← htb2]
    simp [h1, h2]
  simp [this] at hpred

/-- C2 (amended): for a non-empty input frame with pairwise-distinct ids,
and a prior ledger whose records all carry the `(id, signature)` key of
some current input row with no duplicate keys — in particular whenever the
cache file is absent — the returned table has exactly one record per
distinct input id and nothing else.  Without the prior-coherence proviso
the claim fails: a stale cached record for an input id yields two records
for that id (see `c2_counterexample`). -/
theorem c2_completeness (hashFn : String → String) (oracle : ℕ → Reply) (mpc : ℤ)
    (sysLen : ℕ) (model : String) (disk : Option (List CacheRec))
    (input : List (ℤ × String))
    (hne : input ≠ [])
    (hids : (input.map Prod.fst).Nodup)
    (hpk : ((disk.getD []).map keyOf).Nodup)
    (hsub : ∀ r ∈ disk.getD ([] : List CacheRec),
      keyOf r ∈ input.map (fun p => (p.1, hash_sig hashFn p.2))) :
    ((run_llm_batch hashFn oracle mpc sysLen model disk input).output.map OutRec.id).Perm
      (input.map Prod.fst) := by
  have hne' : input.isEmpty = false := by
    rcases input with _ | _
    · exact absurd rfl hne
    · rfl
  by_cases hnt : (todoOf (disk.getD []) (baseOf hashFn input)).isEmpty = true
  · have htodo : todoOf (disk.getD []) (baseOf hashFn input) = [] := List.isEmpty_iff.mp hnt
    have hrun : run_llm_batch hashFn oracle mpc sysLen model disk input =
        { output := (disk.getD []).map (outOf model), disk := disk, readDisk := true,
          wroteDisk := false } := by
      unfold run_llm_batch
      rw [if_neg (by simp [hne']), if_pos (by simp [hnt])]
    rw [hrun]
    show (((disk.getD []).map (outOf model)).map OutRec.id).Perm (input.map Prod.fst)
    have hout : ((disk.getD []).map (outOf model)).map OutRec.id =
        (disk.getD []).map CacheRec.id := by
      rw [List.map_map]; rfl
    rw [hout]
    refine (List.perm_ext_iff_of_nodup (prior_ids_nodup hids hpk hsub) hids).mpr ?_
    intro i
    constructor
    · exact fun hi => prior_ids_sub hsub i hi
    · intro hi
      rcases input_id_split hashFn (disk.getD []) hi with h | h
      · exact h
      · rw [htodo] at h
        simp at h
  · have hnt' : (todoOf (disk.getD []) (baseOf hashFn input)).isEmpty = false := by
      simpa using hnt
    obtain ⟨A, r1, r2, r3, r4, r5⟩ :=
      run_spec hashFn oracle mpc sysLen model disk input hids hpk hne' hnt'
    rw [r1]
    have hout : (((disk.getD []) ++ A).map (outOf model)).map OutRec.id =
        ((disk.getD []) ++ A).map CacheRec.id := by
      rw [List.map_map]; rfl
    rw [hout, List.map_append, r2]
    have hnd : ((disk.getD []).map CacheRec.id ++
        (todoOf (disk.getD []) (baseOf hashFn input)).map TodoRow.id).Nodup := by
      refine List.nodup_append.mpr ⟨prior_ids_nodup hids hpk hsub,
        todo_ids_nodup hashFn hids (disk.getD []), ?_⟩
      intro i hi hit
      exact prior_todo_disjoint hids hsub i hi hit
    refine (List.perm_ext_iff_of_nodup hnd hids).mpr ?_
    intro i
    constructor
    · intro hi
      rcases List.mem_append.mp hi with h | h
      · exact prior_ids_sub hsub i h
      · have hib : i ∈ (baseOf hashFn input).map TodoRow.id := by
          obtain ⟨t, ht, he⟩ := List.mem_map.mp h
          exact List.mem_map.mpr ⟨t, List.mem_of_mem_filter ht, he⟩
        rw [baseOf_ids] at hib
        exact hib
    · intro hi
      exact List.mem_append.mpr (input_id_split hashFn (disk.getD []) hi)

/-- Witness for C2 (amended): two fresh rows against an absent cache file
come back as exactly one record each. -/
theorem c2_completeness_witness :
    ((run_llm_batch (fun s => s)
        (fun _ => .text "1|positive|0.8|0|none\n2|negative|-0.6|0|none")
        120000 300 "m" none [(1, "great work"), (2, "this is bad")]).output.map
      OutRec.id).Perm ([(1, "great work"), (2, "this is bad")].map Prod.fst) :=
  c2_completeness (fun s => s)
    (fun _ => .text "1|positive|0.8|0|none\n2|negative|-0.6|0|none")
    120000 300 "m" none [(1, "great work"), (2, "this is bad")]
    (by decide) (by decide) (by decide) (by decide)

lemma anyKey_iff (l : List CacheRec) (i : ℤ) (s : String) :
    (l.any (fun p => p.id == i && p.cache_sig == s)) = true ↔
      ((i, s) : ℤ × String) ∈ l.map keyOf := by
  rw [List.any_eq_true]
  constructor
  · rintro ⟨p, hp, hm⟩
    simp only [Bool.and_eq_true, beq_iff_eq] at hm
    exact List.mem_map.mpr ⟨p, hp, by simp [keyOf, hm.1, hm.2]⟩
  · intro hm
    obtain ⟨p, hp, he⟩ := List.mem_map.mp hm
    refine ⟨p, hp, ?_⟩
    have h1 : p.id = i := congrArg Prod.fst he
    have h2 : p.cache_sig = s := congrArg Prod.snd he
    simp [h1, h2]

/-- C9: starting from a ledger with no duplicate `(id, cache_sig)` keys and
distinct input ids, a second run of `run_llm_batch` on the ledger the first
run left behind keeps the ledger free of duplicate keys, leaves the file
untouched, returns the same record set (up to row order), and every prior
record survives verbatim: existing keys are never overwritten, only new
keys were appended by the first run. -/
theorem c9_idempotent_caching (hashFn : String → String) (oracle oracle2 : ℕ → Reply)
    (mpc : ℤ) (sysLen : ℕ) (model : String) (disk : Option (List CacheRec))
    (input : List (ℤ × String))
    (hids : (input.map Prod.fst).Nodup)
    (hpk : ((disk.getD []).map keyOf).Nodup) :
    (∀ L, (run_llm_batch hashFn oracle mpc sysLen model disk input).disk = some L →
      (L.map keyOf).Nodup) ∧
    (run_llm_batch hashFn oracle2 mpc sysLen model
        (run_llm_batch hashFn oracle mpc sysLen model disk input).disk input).disk =
      (run_llm_batch hashFn oracle mpc sysLen model disk input).disk ∧
    (run_llm_batch hashFn oracle2 mpc sysLen model
        (run_llm_batch hashFn oracle mpc sysLen model disk input).disk input).output.Perm
      (run_llm_batch hashFn oracle mpc sysLen model disk input).output ∧
    (∀ L, (run_llm_batch hashFn oracle mpc sysLen model disk input).disk = some L →
      ∀ r ∈ disk.getD ([] : List CacheRec), r ∈ L) := by
  by_cases hni : input = []
  · subst hni
    refine ⟨?_, rfl, List.Perm.refl _, ?_⟩
    · intro L hL
      have hd : disk = some L := hL
      rw [hd] at hpk
      simpa using hpk
    · intro L hL r hr
      have hd : disk = some L := hL
      rw [hd] at hr
      simpa using hr
  · have hne' : input.isEmpty = false := by
      rcases input with _ | ⟨a, t⟩
      · exact absurd rfl hni
      · rfl
    by_cases hnt : (todoOf (disk.getD []) (baseOf hashFn input)).isEmpty = true
    · have hrun1 : run_llm_batch hashFn oracle mpc sysLen model disk input =
          { output := (disk.getD []).map (outOf model), disk := disk, readDisk := true,
            wroteDisk := false } := by
        unfold run_llm_batch
        rw [if_neg (by simp [hne']), if_pos (by simp [hnt])]
      have hrun2 : run_llm_batch hashFn oracle2 mpc sysLen model disk input =
          { output := (disk.getD []).map (outOf model), disk := disk, readDisk := true,
            wroteDisk := false } := by
        unfold run_llm_batch
        rw [if_neg (by simp [hne']), if_pos (by simp [hnt])]
      refine ⟨?_, ?_, ?_, ?_⟩
      · intro L hL
        rw [hrun1] at hL
        have hd : disk = some L := hL
        rw [hd] at hpk
        simpa using hpk
      · rw [hrun1]
        show (run_llm_batch hashFn oracle2 mpc sysLen model disk input).disk = disk
        rw [hrun2]
      · rw [hrun1]
        show (run_llm_batch hashFn oracle2 mpc sysLen model disk input).output.Perm
          ((disk.getD []).map (outOf model))
        rw [hrun2]
      · intro L hL r hr
        rw [hrun1] at hL
        have hd : disk = some L := hL
        rw [hd] at hr
        simpa using hr
    · have hnt' : (todoOf (disk.getD []) (baseOf hashFn input)).isEmpty = false := by
        simpa using hnt
      obtain ⟨A, r1, r2, r3, r4, r5⟩ :=
        run_spec hashFn oracle mpc sysLen model disk input hids hpk hne' hnt'
      have hperm : (sortById ((disk.getD []) ++ A)).Perm ((disk.getD []) ++ A) :=
        sortById_perm _
      have htodo2 : todoOf (sortById ((disk.getD []) ++ A)) (baseOf hashFn input) = [] := by
        apply List.filter_eq_nil_iff.mpr
        intro t ht
        suffices h : ((sortById ((disk.getD []) ++ A)).any
            (fun p => p.id == t.id && p.cache_sig == t.cache_sig)) = true by
          simp [h]
        rw [anyKey_iff, (hperm.map keyOf).mem_iff, List.map_append, List.mem_append]
        by_cases hc : ((t.id, t.cache_sig) : ℤ × String) ∈ (disk.getD []).map keyOf
        · exact Or.inl hc
        · right
          have htodo1 : t ∈ todoOf (disk.getD []) (baseOf hashFn input) := by
            refine List.mem_filter.mpr ⟨ht, ?_⟩
            have hfalse : ((disk.getD []).any
                (fun p => p.id == t.id && p.cache_sig == t.cache_sig)) = false := by
              by_contra hx
              have hx' : ((disk.getD []).any
                  (fun p => p.id == t.id && p.cache_sig == t.cache_sig)) = true := by
                rcases hb : (disk.getD []).any
                    (fun p => p.id == t.id && p.cache_sig == t.cache_sig) with _ | _
                · exact absurd hb hx
                · rfl
              exact hc ((anyKey_iff _ _ _).mp hx')
            simp [hfalse]
          have hmemA : t.id ∈ A.map CacheRec.id := by
            rw [r2]
            exact List.mem_map_of_mem TodoRow.id htodo1
          obtain ⟨a, ha, hae⟩ := List.mem_map.mp hmemA
          obtain ⟨t', ht', h1, h2⟩ := r3 a ha
          have htt : t' = t :=
            base_row_unique hids (List.mem_of_mem_filter ht') ht (by rw [← h1, hae])
          refine List.mem_map.mpr ⟨a, ha, ?_⟩
          have hta : a.id = t.id := by rw [h1, htt]
          have hsa : a.cache_sig = t.cache_sig := by rw [h2, htt]
          simp [keyOf, hta, hsa]
      have hrun2 : run_llm_batch hashFn oracle2 mpc sysLen model
          (some (sortById ((disk.getD []) ++ A))) input =
          { output := (sortById ((disk.getD []) ++ A)).map (outOf model),
            disk := some (sortById ((disk.getD []) ++ A)), readDisk := true,
            wroteDisk := false } := by
        unfold run_llm_batch
        rw [if_neg (by simp [hne']), if_pos (by simp [htodo2])]
        rfl
      refine ⟨?_, ?_, ?_, ?_⟩
      · intro L hL
        rw [r5] at hL
        have hLe : L = sortById ((disk.getD []) ++ A) := (Option.some.inj hL).symm
        subst hLe
        exact ((hperm.map keyOf).nodup_iff).mpr r4
      · rw [r5]
        show (run_llm_batch hashFn oracle2 mpc sysLen model
          (some (sortById ((disk.getD []) ++ A))) input).disk =
          some (sortById ((disk.getD []) ++ A))
        rw [hrun2]
      · rw [r5, r1]
        show (run_llm_batch hashFn oracle2 mpc sysLen model
          (some (sortById ((disk.getD []) ++ A))) input).output.Perm
          (((disk.getD []) ++ A).map (outOf model))
        rw [hrun2]
        exact hperm.map (outOf model)
      · intro L hL r hr
        rw [r5] at hL
        have hLe : L = sortById ((disk.getD []) ++ A) := (Option.some.inj hL).symm
        subst hLe
        exact (hperm.mem_iff).mpr (List.mem_append_left A hr)

/-- Witness for C9: a fresh two-row run against an absent cache file,
re-run on the ledger it wrote. -/
theorem c9_idempotent_caching_witness :
    (∀ L, (run_llm_batch (fun s => s)
        (fun _ => .text "1|positive|0.8|0|none\n2|negative|-0.6|0|none")
        120000 300 "m" none [(1, "great work"), (2, "this is bad")]).disk = some L →
      (L.map keyOf).Nodup) ∧
    (run_llm_batch (fun s => s) (fun _ => .text "")
        120000 300 "m"
        (run_llm_batch (fun s => s)
          (fun _ => .text "1|positive|0.8|0|none\n2|negative|-0.6|0|none")
          120000 300 "m" none [(1, "great work"), (2, "this is bad")]).disk
        [(1, "great work"), (2, "this is bad")]).disk =
      (run_llm_batch (fun s => s)
        (fun _ => .text "1|positive|0.8|0|none\n2|negative|-0.6|0|none")
        120000 300 "m" none [(1, "great work"), (2, "this is bad")]).disk ∧
    (run_llm_batch (fun s => s) (fun _ => .text "")
        120000 300 "m"
        (run_llm_batch (fun s => s)
          (fun _ => .text "1|positive|0.8|0|none\n2|negative|-0.6|0|none")
          120000 300 "m" none [(1, "great work"), (2, "this is bad")]).disk
        [(1, "great work"), (2, "this is bad")]).output.Perm
      (run_llm_batch (fun s => s)
        (fun _ => .text "1|positive|0.8|0|none\n2|negative|-0.6|0|none")
        120000 300 "m" none [(1, "great work"), (2, "this is bad")]).output ∧
    (∀ L, (run_llm_batch (fun s => s)
        (fun _ => .text "1|positive|0.8|0|none\n2|negative|-0.6|0|none")
        120000 300 "m" none [(1, "great work"), (2, "this is bad")]).disk = some L →
      ∀ r ∈ (none : Option (List CacheRec)).getD [], r ∈ L) :=
  c9_idempotent_caching (fun s => s)
    (fun _ => .text "1|positive|0.8|0|none\n2|negative|-0.6|0|none")
    (fun _ => .text "") 120000 300 "m" none [(1, "great work"), (2, "this is bad")]
    (by decide) (by decide)

/-! ## C10: empty-input edge case -/

/-- C10: with an empty input frame, `run_llm_batch` returns the empty table
(whose row type `OutRec` carries exactly the columns `id, llm_label,
llm_score, llm_sarcasm, llm_ethics, cache_sig, model`) and neither reads
nor writes the cache file, whatever it contains: the guard at line 808 runs
before any filesystem access. -/
theorem c10_empty_input (hashFn : String → String) (oracle : ℕ → Reply) (mpc : ℤ)
    (sysLen : ℕ) (model : String) (disk : Option (List CacheRec)) :
    run_llm_batch hashFn oracle mpc sysLen model disk [] =
      { output := [], disk := disk, readDisk := false, wroteDisk := false } :=
  rfl

/-- Counterexample to C2 as stated: with a prior ledger holding id 1 under
a stale signature, the non-empty run returns two records for input id 1
(the stale cached one and the fresh one), so the output ids `[1, 1, 2]` are
not one-per-distinct-input-id. -/
theorem c2_counterexample :
    ((run_llm_batch (fun s => s)
        (fun _ => .text "1|positive|0.8|0|none\n2|negative|-0.6|0|none")
        120000 300 "m"
        (some [{ id := 1, llm_label := "positive", llm_score := 1, llm_sarcasm := false,
                 llm_ethics := "none", cache_sig := "OLDSIG" }])
        [(1, "great work"), (2, "this is bad")]).output.map OutRec.id) = [1, 1, 2] ∧
    ¬ ([1, 1, 2] : List ℤ).Nodup := by
  constructor
  · rfl
  · decide

end ST
